import Mathlib

/-!
Verification of the arroyo checkpointing core.

A shallow embedding of the two source files of this repository:

* `arroyo-state/src/tables/key_time_multi_map.rs` — the `KeyTimeMultiMapCache`
  (an in-memory index `values : K → BTreeMap<SystemTime, Vec<V>>` together with
  an earliest-timestamp index `expirations : BTreeMap<SystemTime, HashSet<K>>`)
  and the façade operations of `KeyTimeMultiMap`.
* `arroyo-state/src/checkpoint_state.rs` — the checkpoint coordinator
  (`CheckpointState`, `OperatorState`, `TableState`).

Modelling conventions:

* `SystemTime` instants are modelled as `Nat` microseconds since `UNIX_EPOCH`
  (so `UNIX_EPOCH = 0`); `from_micros`/`to_micros` are mutually inverse and are
  elided.
* Rust's `BTreeMap` is modelled as an association list kept in ascending key
  order by its operations; `first_key_value`/`last_key_value` are the entries at
  the minimum/maximum key, computed directly as such.
* Rust's `HashMap` is modelled as an association list with unique keys (new
  keys appended at the end); `HashSet` as a duplicate-free list.
* Rust panics (`unwrap`/`expect` on `None`, `panic!`) are modelled by functions
  returning `Option`, with `none` for a panic.
* bincode encoding/decoding of keys and values is the identity: log records
  carry the decoded `K`/`V` directly.
* Logging (`debug!`) and the prometheus gauge update are elided; the backing
  store is an external collaborator, so the façade-level cache mutations are
  modelled directly on the cache.
-/

set_option linter.unusedVariables false

section AssocHelpers

variable {κ : Type} {α : Type} [DecidableEq κ]

/-- `HashMap::get` on an association list: the value at the first matching key. -/
def lookupA (key : κ) : List (κ × α) → Option α
  | [] => none
  | (k, a) :: rest => if k = key then some a else lookupA key rest

/-- `HashMap::remove` on an association list: drop the entry for `key`. -/
def eraseA (key : κ) : List (κ × α) → List (κ × α)
  | [] => []
  | (k, a) :: rest => if k = key then rest else (k, a) :: eraseA key rest

/-- `HashMap::insert` on an association list: replace the value at `key`, or
append a new entry at the end if the key is absent. -/
def insertA (key : κ) (val : α) : List (κ × α) → List (κ × α)
  | [] => [(key, val)]
  | (k, a) :: rest => if k = key then (k, val) :: rest else (k, a) :: insertA key val rest

/-- `HashMap::entry(key).or_insert_with(dflt)` followed by a mutation `f` of the
entry: modify the value at `key`, inserting `f dflt` if the key is absent. -/
def updateA (key : κ) (dflt : α) (f : α → α) : List (κ × α) → List (κ × α)
  | [] => [(key, f dflt)]
  | (k, a) :: rest => if k = key then (k, f a) :: rest else (k, a) :: updateA key dflt f rest

/-- `HashMap::entry(key).and_modify(f)`: modify the value at `key` if present,
otherwise leave the list unchanged. -/
def modifyA (key : κ) (f : α → α) : List (κ × α) → List (κ × α)
  | [] => []
  | (k, a) :: rest => if k = key then (k, f a) :: rest else (k, a) :: modifyA key f rest

end AssocHelpers

section MapMinMax

variable {α : Type}

/-- The minimum key of an association-list map: the key of
`BTreeMap::first_key_value`. -/
def keysMin : List (Nat × α) → Option Nat
  | [] => none
  | (t, _) :: rest => some (match keysMin rest with | none => t | some s => Nat.min t s)

/-- The maximum key of an association-list map: the key of
`BTreeMap::last_key_value`. -/
def keysMax : List (Nat × α) → Option Nat
  | [] => none
  | (t, _) :: rest => some (match keysMax rest with | none => t | some s => Nat.max t s)

end MapMinMax

/-- Remove the first element equal to `v` from a list: the
`iter().position(..)` / `remove(position)` pattern used for
`DataOperation::DeleteValue` during `from_checkpoint` replay. -/
def removeFirst {α : Type} [DecidableEq α] (v : α) : List α → List α
  | [] => []
  | x :: rest => if x = v then rest else x :: removeFirst v rest

section CacheModel

variable {K V : Type} [DecidableEq K] [DecidableEq V]

/-- The per-key `BTreeMap<SystemTime, Vec<V>>` of timestamped value lists,
kept in ascending timestamp order. -/
abbrev TimeMap (V : Type) := List (Nat × List V)

/-- The `expirations : BTreeMap<SystemTime, HashSet<K>>` index, kept in
ascending time order; each bucket is a duplicate-free key list. -/
abbrev Expirations (K : Type) := List (Nat × List K)

/-- `KeyTimeMultiMapCache<K, V>`: `values` maps keys to their timestamp maps,
`expirations` indexes keys by earliest timestamp. -/
structure KTMCache (K V : Type) where
  values : List (K × TimeMap V)
  expirations : Expirations K
deriving DecidableEq, Repr

/-- The `Default` instance: both maps empty. -/
def KTMCache.empty : KTMCache K V := ⟨[], []⟩

/-- `BTreeMap::entry(t).or_default().push(v)` on a timestamp map: append `v` to
the list at `t`, inserting a fresh singleton entry in key order if absent. -/
def tmPush (t : Nat) (v : V) : TimeMap V → TimeMap V
  | [] => [(t, [v])]
  | (s, l) :: rest =>
    if t < s then (t, [v]) :: (s, l) :: rest
    else if t = s then (s, l ++ [v]) :: rest
    else (s, l) :: tmPush t v rest

/-- `BTreeMap::insert(t, vec![v])` on a timestamp map: insert-or-replace the
entry at `t` with the singleton list `[v]`, in key order. -/
def tmInsertReplace (t : Nat) (v : V) : TimeMap V → TimeMap V
  | [] => [(t, [v])]
  | (s, l) :: rest =>
    if t < s then (t, [v]) :: (s, l) :: rest
    else if t = s then (s, [v]) :: rest
    else (s, l) :: tmInsertReplace t v rest

/-- `expirations.entry(t).or_default().insert(k)`: add `k` to the bucket at
time `t` (sets ignore duplicates), creating the bucket in key order if absent. -/
def expAddKey (t : Nat) (k : K) : Expirations K → Expirations K
  | [] => [(t, [k])]
  | (s, ks) :: rest =>
    if t < s then (t, [k]) :: (s, ks) :: rest
    else if t = s then (s, if k ∈ ks then ks else ks ++ [k]) :: rest
    else (s, ks) :: expAddKey t k rest

/-- The `insert` path that moves a key off its previous earliest bucket:
`expirations.entry(t).or_default()`, then `remove(&k)`, then dropping the
bucket if it became empty.  Net effect: erase `k` from the bucket at `t`,
removing the bucket when empty (an absent bucket is created empty and
immediately dropped, so the net effect there is no change). -/
def expDropKeyAt (t : Nat) (k : K) : Expirations K → Expirations K
  | [] => []
  | (s, ks) :: rest =>
    if t = s then
      let ks' := ks.erase k
      if ks' = [] then rest else (s, ks') :: rest
    else (s, ks) :: expDropKeyAt t k rest

/-- The times of the expiration buckets containing `k`. -/
def bucketsOf (k : K) (e : Expirations K) : List Nat :=
  (e.filter (fun b => k ∈ b.2)).map Prod.fst

/-- `KeyTimeMultiMapCache::insert(timestamp, key, value)`:
if the key's entry map is empty, insert the value and register the key under
`expirations[timestamp]`; otherwise compare with the current earliest
timestamp, and either move the key to an earlier bucket or just append. -/
def cacheInsert (timestamp : Nat) (key : K) (value : V) (c : KTMCache K V) : KTMCache K V :=
  match lookupA key c.values with
  | none =>
    -- entry(key).or_default() creates an empty map; is_empty() holds
    { values := insertA key [(timestamp, [value])] c.values
      expirations := expAddKey timestamp key c.expirations }
  | some m =>
    match keysMin m with
    | none =>
      -- the existing map is empty: same branch as a fresh key
      { values := insertA key [(timestamp, [value])] c.values
        expirations := expAddKey timestamp key c.expirations }
    | some current_earliest =>
      if timestamp < current_earliest then
        { values := insertA key (tmInsertReplace timestamp value m) c.values
          expirations :=
            expAddKey timestamp key (expDropKeyAt current_earliest key c.expirations) }
      else
        { values := insertA key (tmPush timestamp value m) c.values
          expirations := c.expirations }

/-- `KeyTimeMultiMapCache::remove_key(key)`: drop the key from `values` and
erase it from every expiration bucket (empty buckets are left in place). -/
def cacheRemoveKey (key : K) (c : KTMCache K V) : KTMCache K V :=
  { values := eraseA key c.values
    expirations := c.expirations.map (fun b => (b.1, b.2.erase key)) }

/-- `KeyTimeMultiMapCache::remove_value(timestamp, key, value)`: inside
`values[key][timestamp]`, retain the stored values different from `value`
(note: `Vec::retain` drops every equal element, not just the first); absent
key or timestamp is a no-op. -/
def cacheRemoveValue (timestamp : Nat) (key : K) (value : V) (c : KTMCache K V) : KTMCache K V :=
  match lookupA key c.values with
  | none => c
  | some m =>
    { c with values :=
        insertA key (modifyA timestamp (fun l => l.filter (fun sv => sv ≠ value)) m) c.values }

/-- The cache part of `KeyTimeMultiMap::clear_time_range(key, start, end)`:
retain only the timestamps outside `[start, end)`; the key itself is left in
`values` even when its map empties, and `expirations` is not touched. -/
def clearTimeRange (key : K) (start stop : Nat) (c : KTMCache K V) : KTMCache K V :=
  match lookupA key c.values with
  | none => c
  | some m =>
    { c with values :=
        insertA key (m.filter (fun p => ¬ (start ≤ p.1 ∧ p.1 < stop))) c.values }

/-- `KeyTimeMultiMap::get_time_range(key, start, end)`: the values of all
timestamps in `[start, end)`, in ascending timestamp order, flattened. -/
def getTimeRange (key : K) (start stop : Nat) (c : KTMCache K V) : List V :=
  match lookupA key c.values with
  | none => []
  | some m => (m.filter (fun p => start ≤ p.1 ∧ p.1 < stop)).flatMap Prod.snd

/-- The first statement of `expire_entries_before`: the set of keys found in
expiration buckets strictly before `time` (`expirations.range(..time)`
flat-mapped and collected into a `HashSet`, modelled as a deduplicated list). -/
def expiredKeySet (time : Nat) (c : KTMCache K V) : List K :=
  ((c.expirations.filter (fun b => b.1 < time)).flatMap Prod.snd).dedup

/-- One iteration of the `expire_entries_before` loop for a gathered key:
`values.get_mut(&key).unwrap()` (panic when absent), then either drop the key
entirely (when its last timestamp is `≤ time`) or split off the `≥ time` part,
re-registering the key under the new earliest timestamp.  `none` is a panic. -/
def expireStep (time : Nat) (key : K) (c : KTMCache K V) : Option (KTMCache K V) :=
  match lookupA key c.values with
  | none => none
  | some key_data =>
    match keysMax key_data with
    | none => none
    | some last =>
      if last ≤ time then
        some { c with values := eraseA key c.values }
      else
        -- split_off(&time) keeps the entries with timestamp ≥ time
        let retained := key_data.filter (fun p => time ≤ p.1)
        match keysMin retained with
        | none => none
        | some earliest =>
          some { values := insertA key retained c.values
                 expirations := expAddKey earliest key c.expirations }

/-- The `for key in keys_to_remove` loop of `expire_entries_before`. -/
def expireLoop (time : Nat) : List K → KTMCache K V → Option (KTMCache K V)
  | [], c => some c
  | k :: rest, c =>
    match expireStep time k c with
    | none => none
    | some c' => expireLoop time rest c'

/-- `KeyTimeMultiMapCache::expire_entries_before(time)`: gather the keys of
the buckets before `time`, process each of them, and return the gathered key
set.  The buckets before `time` themselves are never removed.  `none` is a
panic inside the loop. -/
def expireEntriesBefore (time : Nat) (c : KTMCache K V) : Option (KTMCache K V × List K) :=
  let keys_to_remove := expiredKeySet time c
  match expireLoop time keys_to_remove c with
  | none => none
  | some c' => some (c', keys_to_remove)

end CacheModel

section CacheInvariants

variable {K V : Type} [DecidableEq K] [DecidableEq V]

/-- Invariant I3 of the specification: every key of `values` whose timestamp
map is non-empty appears in exactly one expiration bucket, whose time is the
minimum timestamp key of its map. -/
def I3 (c : KTMCache K V) : Prop :=
  ∀ p ∈ c.values, p.2 ≠ [] → bucketsOf p.1 c.expirations = (keysMin p.2).toList

instance (c : KTMCache K V) : Decidable (I3 c) := by
  unfold I3; infer_instance

/-- The full structural invariant maintained by the basic cache mutations:
unique map keys, strictly ascending bucket times (as in a `BTreeMap`),
duplicate-free buckets, non-empty timestamp maps placed in exactly their
minimum-time bucket, and no dangling bucket members. -/
def CacheInv (c : KTMCache K V) : Prop :=
  (c.values.map Prod.fst).Nodup ∧
  List.Pairwise (· < ·) (c.expirations.map Prod.fst) ∧
  (∀ b ∈ c.expirations, b.2.Nodup) ∧
  (∀ p ∈ c.values, p.2 ≠ [] ∧ bucketsOf p.1 c.expirations = (keysMin p.2).toList) ∧
  (∀ b ∈ c.expirations, ∀ k ∈ b.2, ∃ p ∈ c.values, p.1 = k)

instance (c : KTMCache K V) : Decidable (CacheInv c) := by
  unfold CacheInv; infer_instance

/-- The three basic cache mutations (`insert`, `remove_key`, `remove_value`). -/
inductive CacheOp (K V : Type) where
  | ins (timestamp : Nat) (key : K) (value : V)
  | rmKey (key : K)
  | rmVal (timestamp : Nat) (key : K) (value : V)

/-- Apply one basic operation. -/
def applyOp (c : KTMCache K V) : CacheOp K V → KTMCache K V
  | .ins t k v => cacheInsert t k v c
  | .rmKey k => cacheRemoveKey k c
  | .rmVal t k v => cacheRemoveValue t k v c

/-- Run a sequence of basic operations from the empty cache. -/
def runOps (ops : List (CacheOp K V)) : KTMCache K V :=
  ops.foldl applyOp KTMCache.empty

end CacheInvariants

section FromCheckpoint

variable {K V : Type} [DecidableEq K] [DecidableEq V]

/-- `DataOperation`: the log record kinds replayed by `from_checkpoint`.
Payload keys and values carry the already-decoded data (bincode is the
identity in this model). -/
inductive DataOp (K V : Type) where
  | insertOp
  | deleteTimeKey
  | deleteKey (key : K)
  | deleteValue (key : K) (value : V) (timestamp : Nat)
  | deleteTimeRange (start stop : Nat)

/-- A replayed tuple from `backing_store.get_data_tuples(table)`. -/
structure DataTuple (K V : Type) where
  key : K
  timestamp : Nat
  value : Option V
  operation : DataOp K V

/-- One iteration of the `from_checkpoint` replay loop over `values`:
skip tuples below `min_valid_time`, then dispatch on the operation.
`none` is a panic (`DeleteTimeKey`, or an `Insert` without a value). -/
def replayTuple (min_valid_time : Nat) (values : List (K × TimeMap V))
    (tuple : DataTuple K V) : Option (List (K × TimeMap V)) :=
  if tuple.timestamp < min_valid_time then some values
  else
    match tuple.operation with
    | .insertOp =>
      match tuple.value with
      | none => none
      | some v => some (updateA tuple.key [] (tmPush tuple.timestamp v) values)
    | .deleteTimeKey => none
    | .deleteKey key => some (eraseA key values)
    | .deleteValue key value timestamp =>
      some (modifyA key (modifyA timestamp (removeFirst value)) values)
    | .deleteTimeRange start stop =>
      match lookupA tuple.key values with
      | none => some values
      | some key_map =>
        let key_map' := key_map.filter (fun p => ¬ (start ≤ p.1 ∧ p.1 < stop))
        if key_map' = [] then some (eraseA tuple.key values)
        else some (insertA tuple.key key_map' values)

/-- The whole replay loop of `from_checkpoint`, building `values`. -/
def replayLog (min_valid_time : Nat) (values : List (K × TimeMap V)) :
    List (DataTuple K V) → Option (List (K × TimeMap V))
  | [] => some values
  | tuple :: rest =>
    match replayTuple min_valid_time values tuple with
    | none => none
    | some values' => replayLog min_valid_time values' rest

/-- `min_valid_time` of `from_checkpoint`:
`min_watermark.map_or(UNIX_EPOCH, |w| from_micros(w - retention_micros))`. -/
def minValidTime (min_watermark : Option Nat) (retention_micros : Nat) : Nat :=
  match min_watermark with
  | none => 0
  | some w => w - retention_micros

/-- The final `expirations` rebuild of `from_checkpoint`: each key is placed in
the bucket of its first (minimum) timestamp key; `none` models the
`keys().next().unwrap()` panic on an empty map. -/
def rebuildExpirations : List (K × TimeMap V) → Option (Expirations K)
  | [] => some []
  | (key, m) :: rest =>
    match keysMin m with
    | none => none
    | some t =>
      match rebuildExpirations rest with
      | none => none
      | some e => some (expAddKey t key e)

/-- `KeyTimeMultiMapCache::from_checkpoint`, after the operator metadata has
been loaded: replay the data tuples above `min_valid_time` and rebuild the
expiration index. -/
def fromCheckpoint (min_watermark : Option Nat) (retention_micros : Nat)
    (log : List (DataTuple K V)) : Option (KTMCache K V) :=
  let min_valid_time := minValidTime min_watermark retention_micros
  match replayLog min_valid_time [] log with
  | none => none
  | some values =>
    match rebuildExpirations values with
    | none => none
    | some expirations => some ⟨values, expirations⟩

end FromCheckpoint

section CheckpointModel

/-- The minimum of a list of naturals (`Iterator::min`). -/
def listMin : List Nat → Option Nat
  | [] => none
  | a :: rest => some (match listMin rest with | none => a | some b => Nat.min a b)

/-- The maximum of a list of naturals (`Iterator::max`). -/
def listMax : List Nat → Option Nat
  | [] => none
  | a :: rest => some (match listMax rest with | none => a | some b => Nat.max a b)

/-- Modelled from the spec: `TableSubtaskCheckpointMetadata` is a wire type
defined outside this repository slice; only its `subtask_index` is inspected
here, the rest is an abstract payload. -/
structure TableSubtaskMeta where
  subtask_index : Nat
  payload : Nat
deriving DecidableEq, Repr

/-- Modelled from the spec: `TableConfig` is a wire type defined outside this
repository slice; the merge rule it selects is injected (§4.3), so it is kept
abstract here. -/
structure TableConfigM where
  payload : Nat
deriving DecidableEq, Repr

/-- Modelled from the spec: `TableCheckpointMetadata`, the merged table-level
metadata produced by the injected merge rule; abstract here. -/
structure TableMetaM where
  payload : Nat
deriving DecidableEq, Repr

/-- The per-table merge rule of `TableState::into_table_metadata`
(`GlobalKeyedTable::merge_checkpoint_metadata` /
`ExpiringTimeKeyTable::merge_checkpoint_metadata`).  Modelled from the spec:
the rule lives outside this repository slice and is injected; it returns the
merged metadata or `none` when no subtask contributed durable state. -/
abbrev MergeRule := TableConfigM → List (Nat × TableSubtaskMeta) → Option TableMetaM

/-- `TableState`: the table config plus the per-subtask metadata gathered so
far. -/
structure TableStateM where
  table_config : TableConfigM
  subtask_tables : List (Nat × TableSubtaskMeta)
deriving DecidableEq, Repr

/-- `SubtaskCheckpointMetadata` (the fields used by `finish_subtask`);
`start_time`/`finish_time`/`watermark` are in microseconds. -/
structure SubtaskMeta where
  subtask_index : Nat
  start_time : Nat
  finish_time : Nat
  watermark : Option Nat
  table_metadata : List (String × TableSubtaskMeta)
  table_configs : List (String × TableConfigM)
deriving DecidableEq, Repr

/-- `OperatorState`. -/
structure OperatorStateM where
  subtasks : Nat
  subtasks_checkpointed : Nat
  start_time : Option Nat
  finish_time : Option Nat
  table_state : List (String × TableStateM)
  watermarks : List (Option Nat)
deriving DecidableEq, Repr

/-- `OperatorState::new(subtasks)`. -/
def OperatorStateM.new (subtasks : Nat) : OperatorStateM :=
  ⟨subtasks, 0, none, none, [], []⟩

/-- The `for (table, table_metadata) in c.table_metadata` loop of
`finish_subtask`: upsert a `TableState` (the config looked up in
`c.table_configs`; a missing config is the `expect("should have metadata")`
panic, modelled as `none`) and insert the subtask metadata under its index. -/
def finishTables (cfgs : List (String × TableConfigM)) (tbl : List (String × TableStateM)) :
    List (String × TableSubtaskMeta) → Option (List (String × TableStateM))
  | [] => some tbl
  | (name, tm) :: rest =>
    match lookupA name tbl with
    | some ts =>
      finishTables cfgs
        (insertA name { ts with subtask_tables := insertA tm.subtask_index tm ts.subtask_tables } tbl)
        rest
    | none =>
      match lookupA name cfgs with
      | none => none
      | some cfg =>
        finishTables cfgs
          (insertA name ⟨cfg, [(tm.subtask_index, tm)]⟩ tbl) rest

/-- `OperatorState::finish_subtask(c)`: count the subtask, record its
watermark, fold its start/finish times in, upsert its per-table metadata, and
on the last expected subtask drain `table_state` through the merge rule and
return the merged `(table_configs, table_metadatas)` pair.  `none` is a panic. -/
def finishSubtask (merge : MergeRule) (os : OperatorStateM) (c : SubtaskMeta) :
    Option (OperatorStateM ×
      Option (List (String × TableConfigM) × List (String × TableMetaM))) :=
  let subtasks_checkpointed := os.subtasks_checkpointed + 1
  let watermarks := os.watermarks ++ [c.watermark]
  let start_time := some (match os.start_time with
    | some existing => Nat.min existing c.start_time
    | none => c.start_time)
  let finish_time := some (match os.finish_time with
    | some existing => Nat.max existing c.finish_time
    | none => c.finish_time)
  match finishTables c.table_configs os.table_state c.table_metadata with
  | none => none
  | some table_state =>
    if os.subtasks = subtasks_checkpointed then
      let merged := table_state.filterMap (fun p =>
        (merge p.2.table_config p.2.subtask_tables).map (fun md =>
          ((p.1, p.2.table_config), (p.1, md))))
      some ({ subtasks := os.subtasks, subtasks_checkpointed := subtasks_checkpointed,
              start_time := start_time, finish_time := finish_time,
              table_state := [], watermarks := watermarks },
            some merged.unzip)
    else
      some ({ subtasks := os.subtasks, subtasks_checkpointed := subtasks_checkpointed,
              start_time := start_time, finish_time := finish_time,
              table_state := table_state, watermarks := watermarks },
            none)

/-- `api::TaskCheckpointEventType` (the UI-side enum). -/
inductive ApiEventType where
  | alignmentStarted
  | checkpointStarted
  | checkpointOperatorFinished
  | checkpointSyncFinished
  | checkpointPreCommit
deriving DecidableEq, Repr

/-- `grpc::TaskCheckpointEventType` (the internal enum). -/
inductive GrpcEventType where
  | startedAlignment
  | startedCheckpointing
  | finishedOperatorSetup
  | finishedSync
  | finishedCommit
deriving DecidableEq, Repr

/-- The fixed internal-to-UI event-kind translation of `checkpoint_event`. -/
def translateEventType : GrpcEventType → ApiEventType
  | .startedAlignment => .alignmentStarted
  | .startedCheckpointing => .checkpointStarted
  | .finishedOperatorSetup => .checkpointOperatorFinished
  | .finishedSync => .checkpointSyncFinished
  | .finishedCommit => .checkpointPreCommit

/-- `api::TaskCheckpointEvent`. -/
structure TaskCheckpointEventM where
  time : Nat
  event_type : ApiEventType
deriving DecidableEq, Repr

/-- `api::TaskCheckpointDetail`. -/
structure TaskCheckpointDetailM where
  subtask_index : Nat
  start_time : Nat
  finish_time : Option Nat
  bytes : Option Nat
  events : List TaskCheckpointEventM
deriving DecidableEq, Repr

/-- `api::OperatorCheckpointDetail`. -/
structure OperatorCheckpointDetailM where
  operator_id : String
  start_time : Nat
  finish_time : Option Nat
  has_state : Bool
  tasks : List (Nat × TaskCheckpointDetailM)
deriving DecidableEq, Repr

/-- `CheckpointState`. -/
structure CheckpointStateM where
  job_id : String
  checkpoint_id : Int
  epoch : Nat
  min_epoch : Nat
  start_time : Nat
  operators : Nat
  operators_checkpointed : Nat
  operator_state : List (String × OperatorStateM)
  operator_details : List (String × OperatorCheckpointDetailM)
deriving DecidableEq, Repr

/-- `TaskCheckpointEventReq`. -/
structure TaskCheckpointEventReqM where
  operator_id : String
  subtask_index : Nat
  time : Nat
  event_type : GrpcEventType
deriving DecidableEq, Repr

/-- `TaskCheckpointCompletedReq` (its `metadata` field is optional on the
wire). -/
structure TaskCheckpointCompletedReqM where
  operator_id : String
  time : Nat
  metadata : Option SubtaskMeta
deriving DecidableEq, Repr

/-- The `OperatorCheckpointMetadata` record persisted via
`write_operator_checkpoint_metadata` (times in microseconds; the constant
fields `has_state=false`, `tables=[]`, `backend_data=[]`, `bytes=0`,
`commit_data=None` of the source are represented by `has_state`). -/
structure OpCheckpointMeta where
  job_id : String
  operator_id : String
  epoch : Nat
  start_time : Nat
  finish_time : Nat
  min_watermark : Option Nat
  max_watermark : Option Nat
  has_state : Bool
  table_checkpoint_metadata : List (String × TableMetaM)
  table_configs : List (String × TableConfigM)
deriving DecidableEq, Repr

/-- The fresh `api::TaskCheckpointDetail` that `checkpoint_event` creates on
first sight of a subtask (`or_insert_with`), with `start_time = c.time`. -/
def freshTaskDetail (c : TaskCheckpointEventReqM) : TaskCheckpointDetailM :=
  { subtask_index := c.subtask_index, start_time := c.time, finish_time := none,
    bytes := none, events := [] }

/-- The fresh `api::OperatorCheckpointDetail` that `checkpoint_event` creates
on first sight of an operator (`or_insert_with`), with `start_time = c.time`. -/
def freshOperatorDetail (c : TaskCheckpointEventReqM) : OperatorCheckpointDetailM :=
  { operator_id := c.operator_id, start_time := c.time, finish_time := none,
    has_state := false, tasks := [] }

/-- The `events.push(...)` of `checkpoint_event`: append the translated UI
event to a task detail record. -/
def pushTaskEvent (c : TaskCheckpointEventReqM) (t : TaskCheckpointDetailM) :
    TaskCheckpointDetailM :=
  { t with events := t.events ++ [⟨c.time, translateEventType c.event_type⟩] }

/-- The inner `tasks.entry(subtask_index).or_insert_with(..)` update of
`checkpoint_event`. -/
def intoOperatorDetail (c : TaskCheckpointEventReqM) (d : OperatorCheckpointDetailM) :
    OperatorCheckpointDetailM :=
  { d with tasks := updateA c.subtask_index (freshTaskDetail c) (pushTaskEvent c) d.tasks }

/-- `CheckpointState::checkpoint_event(c)`: reject `FinishedCommit`; otherwise
append one translated UI event under `(operator_id, subtask_index)`, creating
the operator and task detail records on first sight with `start_time = c.time`. -/
def checkpointEvent (st : CheckpointStateM) (c : TaskCheckpointEventReqM) :
    Except String CheckpointStateM :=
  if c.event_type = .finishedCommit then
    .error "should not receive finished commit while checkpointing"
  else
    .ok { st with operator_details := updateA c.operator_id (freshOperatorDetail c) (intoOperatorDetail c) st.operator_details }

/-- The outcome of `checkpoint_finished`: one of its two error returns, or
success carrying the operator-level record persisted to the backing store when
the operator completed (`None` while subtasks are still outstanding). -/
inductive CFOutcome where
  | errUnknownOperator
  | errMissingMetadata
  | ok (persisted : Option OpCheckpointMeta)
deriving DecidableEq, Repr

/-- `CheckpointState::checkpoint_finished(c)`: fail on an unknown
`operator_id` or an absent `metadata` (leaving the state untouched); otherwise
run `finish_subtask`, and when the operator completes, bump
`operators_checkpointed` and build the persisted `OperatorCheckpointMetadata`
with the watermark aggregation (`(None, None)` when any subtask watermark is
`None`, else min and max).  The outer `none` is a panic. -/
def checkpointFinished (merge : MergeRule) (st : CheckpointStateM)
    (c : TaskCheckpointCompletedReqM) : Option (CheckpointStateM × CFOutcome) :=
  match lookupA c.operator_id st.operator_state with
  | none => some (st, .errUnknownOperator)
  | some os =>
    match c.metadata with
    | none => some (st, .errMissingMetadata)
    | some m =>
      match finishSubtask merge os m with
      | none => none
      | some (os', result) =>
        let st1 := { st with operator_state := insertA c.operator_id os' st.operator_state }
        match result with
        | none => some (st1, .ok none)
        | some (table_configs, table_metadatas) =>
          let st2 := { st1 with operators_checkpointed := st1.operators_checkpointed + 1 }
          let agg :=
            if os'.watermarks.any (fun w => w.isNone) then (none, none)
            else (listMin (os'.watermarks.filterMap id), listMax (os'.watermarks.filterMap id))
          match os'.start_time, os'.finish_time with
          | some s, some f =>
            some (st2, .ok (some
              { job_id := st.job_id, operator_id := c.operator_id, epoch := st.epoch,
                start_time := s, finish_time := f,
                min_watermark := agg.1, max_watermark := agg.2,
                has_state := false,
                table_checkpoint_metadata := table_metadatas,
                table_configs := table_configs }))
          | _, _ => none

end CheckpointModel

section AssocLemmas

variable {κ : Type} {α : Type} [DecidableEq κ]

theorem lookupA_insertA_self (key : κ) (val : α) (l : List (κ × α)) :
    lookupA key (insertA key val l) = some val := by
  induction l with
  | nil => simp [insertA, lookupA]
  | cons p rest ih =>
    obtain ⟨k, a⟩ := p
    by_cases h : k = key <;> simp [insertA, lookupA, h, ih]

theorem lookupA_insertA_ne (key key' : κ) (val : α) (l : List (κ × α)) (h : key' ≠ key) :
    lookupA key' (insertA key val l) = lookupA key' l := by
  induction l with
  | nil =>
    simp only [insertA, lookupA]
    rw [if_neg (Ne.symm h)]
  | cons p rest ih =>
    obtain ⟨k, a⟩ := p
    simp only [insertA]
    by_cases hk : k = key
    · rw [if_pos hk]
      subst hk
      simp only [lookupA]
      rw [if_neg (Ne.symm h), if_neg (Ne.symm h)]
    · rw [if_neg hk]
      simp only [lookupA]
      by_cases hk' : k = key'
      · rw [if_pos hk', if_pos hk']
      · rw [if_neg hk', if_neg hk', ih]

theorem lookupA_eraseA_ne (key key' : κ) (l : List (κ × α)) (h : key' ≠ key) :
    lookupA key' (eraseA key l) = lookupA key' l := by
  induction l with
  | nil => simp [eraseA]
  | cons p rest ih =>
    obtain ⟨k, a⟩ := p
    simp only [eraseA]
    by_cases hk : k = key
    · rw [if_pos hk]
      subst hk
      simp only [lookupA]
      rw [if_neg (Ne.symm h)]
    · rw [if_neg hk]
      simp only [lookupA]
      by_cases hk' : k = key'
      · rw [if_pos hk', if_pos hk']
      · rw [if_neg hk', if_neg hk', ih]

theorem mem_of_lookupA_eq_some {key : κ} {val : α} {l : List (κ × α)}
    (h : lookupA key l = some val) : (key, val) ∈ l := by
  induction l with
  | nil => simp [lookupA] at h
  | cons p rest ih =>
    obtain ⟨k, a⟩ := p
    by_cases hk : k = key
    · subst hk
      simp [lookupA] at h
      simp [h]
    · simp [lookupA, hk] at h
      simp [ih h]

theorem lookupA_eq_some_of_mem {key : κ} {val : α} {l : List (κ × α)}
    (hmem : (key, val) ∈ l) (hnd : (l.map Prod.fst).Nodup) :
    lookupA key l = some val := by
  induction l with
  | nil => simp at hmem
  | cons p rest ih =>
    obtain ⟨k, a⟩ := p
    simp only [List.map_cons, List.nodup_cons] at hnd
    rcases List.mem_cons.mp hmem with h | h
    · cases h
      simp [lookupA]
    · have hk : k ≠ key := by
        intro hkk
        subst hkk
        exact hnd.1 (List.mem_map.mpr ⟨(k, val), h, rfl⟩)
      simp [lookupA, hk, ih h hnd.2]

theorem lookupA_eq_none_iff {key : κ} {l : List (κ × α)} :
    lookupA key l = none ↔ key ∉ l.map Prod.fst := by
  induction l with
  | nil => simp [lookupA]
  | cons p rest ih =>
    obtain ⟨k, a⟩ := p
    simp only [lookupA, List.map_cons, List.mem_cons]
    by_cases hk : k = key
    · subst hk
      simp
    · rw [if_neg hk]
      constructor
      · intro h
        push_neg
        exact ⟨fun hh => hk hh.symm, ih.mp h⟩
      · intro h
        exact ih.mpr (fun hm => h (Or.inr hm))

theorem map_fst_insertA_mem (key : κ) (val : α) (l : List (κ × α))
    (h : key ∈ l.map Prod.fst) :
    (insertA key val l).map Prod.fst = l.map Prod.fst := by
  induction l with
  | nil => simp at h
  | cons p rest ih =>
    obtain ⟨k, a⟩ := p
    by_cases hk : k = key
    · simp [insertA, hk]
    · have hmem : key ∈ rest.map Prod.fst := by
        simp only [List.map_cons, List.mem_cons] at h
        rcases h with h | h
        · exact absurd h.symm hk
        · exact h
      simp [insertA, hk, ih hmem]

theorem map_fst_insertA_not_mem (key : κ) (val : α) (l : List (κ × α))
    (h : key ∉ l.map Prod.fst) :
    (insertA key val l).map Prod.fst = l.map Prod.fst ++ [key] := by
  induction l with
  | nil => simp [insertA]
  | cons p rest ih =>
    obtain ⟨k, a⟩ := p
    simp only [List.map_cons, List.mem_cons] at h
    push_neg at h
    simp only [insertA]
    rw [if_neg (fun hh => h.1 hh.symm)]
    simp [ih h.2]

theorem nodup_map_fst_insertA (key : κ) (val : α) (l : List (κ × α))
    (h : (l.map Prod.fst).Nodup) : ((insertA key val l).map Prod.fst).Nodup := by
  by_cases hm : key ∈ l.map Prod.fst
  · rw [map_fst_insertA_mem key val l hm]; exact h
  · rw [map_fst_insertA_not_mem key val l hm]
    refine List.Nodup.append h (List.nodup_singleton key) ?_
    intro a ha hb
    simp only [List.mem_singleton] at hb
    subst hb
    exact hm ha

theorem eraseA_sublist (key : κ) (l : List (κ × α)) : (eraseA key l).Sublist l := by
  induction l with
  | nil => simp [eraseA]
  | cons p rest ih =>
    obtain ⟨k, a⟩ := p
    simp only [eraseA]
    by_cases hk : k = key
    · rw [if_pos hk]
      exact List.sublist_cons_self (k, a) rest
    · rw [if_neg hk]
      exact ih.cons₂ (k, a)

theorem nodup_map_fst_eraseA (key : κ) (l : List (κ × α))
    (h : (l.map Prod.fst).Nodup) : ((eraseA key l).map Prod.fst).Nodup :=
  h.sublist ((eraseA_sublist key l).map Prod.fst)

theorem lookupA_eraseA_self (key : κ) (l : List (κ × α))
    (h : (l.map Prod.fst).Nodup) : lookupA key (eraseA key l) = none := by
  induction l with
  | nil => simp [eraseA, lookupA]
  | cons p rest ih =>
    obtain ⟨k, a⟩ := p
    simp only [List.map_cons, List.nodup_cons] at h
    simp only [eraseA]
    by_cases hk : k = key
    · rw [if_pos hk]
      rw [lookupA_eq_none_iff]
      subst hk
      exact h.1
    · rw [if_neg hk]
      simp only [lookupA]
      rw [if_neg hk]
      exact ih h.2

theorem mem_insertA_of_ne {p : κ × α} {l : List (κ × α)} (key : κ) (val : α)
    (hmem : p ∈ l) (hne : p.1 ≠ key) : p ∈ insertA key val l := by
  induction l with
  | nil => simp at hmem
  | cons q rest ih =>
    obtain ⟨k, a⟩ := q
    simp only [insertA]
    by_cases hk : k = key
    · rw [if_pos hk]
      rcases List.mem_cons.mp hmem with h | h
      · exact absurd (show p.1 = key by rw [h]; exact hk) hne
      · exact List.mem_cons_of_mem _ h
    · rw [if_neg hk]
      rcases List.mem_cons.mp hmem with h | h
      · rw [h]
        exact List.mem_cons_self _ _
      · exact List.mem_cons_of_mem _ (ih h)

theorem self_mem_insertA (key : κ) (val : α) (l : List (κ × α)) :
    (key, val) ∈ insertA key val l := by
  induction l with
  | nil => simp [insertA]
  | cons q rest ih =>
    obtain ⟨k, a⟩ := q
    by_cases hk : k = key <;> simp [insertA, hk, ih]

theorem mem_insertA_elim {p : κ × α} {l : List (κ × α)} {key : κ} {val : α}
    (hnd : (l.map Prod.fst).Nodup) (hmem : p ∈ insertA key val l) :
    p = (key, val) ∨ (p ∈ l ∧ p.1 ≠ key) := by
  induction l with
  | nil =>
    simp [insertA] at hmem
    exact Or.inl hmem
  | cons q rest ih =>
    obtain ⟨k, a⟩ := q
    simp only [List.map_cons, List.nodup_cons] at hnd
    simp only [insertA] at hmem
    by_cases hk : k = key
    · rw [if_pos hk] at hmem
      rcases List.mem_cons.mp hmem with h | h
      · left
        rw [h, hk]
      · right
        refine ⟨List.mem_cons_of_mem _ h, ?_⟩
        intro hpk
        subst hk
        exact hnd.1 (List.mem_map.mpr ⟨p, h, hpk⟩)
    · rw [if_neg hk] at hmem
      rcases List.mem_cons.mp hmem with h | h
      · right
        refine ⟨?_, ?_⟩
        · rw [h]
          exact List.mem_cons_self _ _
        · rw [h]
          exact hk
      · rcases ih hnd.2 h with h' | h'
        · exact Or.inl h'
        · exact Or.inr ⟨List.mem_cons_of_mem _ h'.1, h'.2⟩

theorem mem_eraseA_elim {p : κ × α} {l : List (κ × α)} {key : κ}
    (hmem : p ∈ eraseA key l) : p ∈ l :=
  (eraseA_sublist key l).subset hmem

theorem not_fst_eraseA {l : List (κ × α)} {key : κ}
    (hnd : (l.map Prod.fst).Nodup) : ∀ p ∈ eraseA key l, p.1 ≠ key := by
  induction l with
  | nil => simp [eraseA]
  | cons q rest ih =>
    obtain ⟨k, a⟩ := q
    simp only [List.map_cons, List.nodup_cons] at hnd
    simp only [eraseA]
    by_cases hk : k = key
    · rw [if_pos hk]
      intro p hp hpk
      subst hk
      exact hnd.1 (List.mem_map.mpr ⟨p, hp, hpk⟩)
    · rw [if_neg hk]
      intro p hp
      rcases List.mem_cons.mp hp with h | h
      · rw [h]
        exact hk
      · exact ih hnd.2 p h

theorem mem_eraseA_of_ne {p : κ × α} {l : List (κ × α)} (key : κ)
    (hmem : p ∈ l) (hne : p.1 ≠ key) : p ∈ eraseA key l := by
  induction l with
  | nil => simp at hmem
  | cons q rest ih =>
    obtain ⟨k, a⟩ := q
    simp only [eraseA]
    by_cases hk : k = key
    · rw [if_pos hk]
      rcases List.mem_cons.mp hmem with h | h
      · exact absurd (show p.1 = key by rw [h]; exact hk) hne
      · exact h
    · rw [if_neg hk]
      rcases List.mem_cons.mp hmem with h | h
      · rw [h]
        exact List.mem_cons_self _ _
      · exact List.mem_cons_of_mem _ (ih h)

end AssocLemmas

section MinMaxLemmas

variable {α : Type}

theorem keysMin_eq_none_iff {m : List (Nat × α)} : keysMin m = none ↔ m = [] := by
  cases m <;> simp [keysMin]

theorem keysMax_eq_none_iff {m : List (Nat × α)} : keysMax m = none ↔ m = [] := by
  cases m <;> simp [keysMax]

theorem keysMin_le {m : List (Nat × α)} {t0 : Nat} (h : keysMin m = some t0) :
    ∀ p ∈ m, t0 ≤ p.1 := by
  induction m generalizing t0 with
  | nil => simp
  | cons q rest ih =>
    obtain ⟨t, a⟩ := q
    intro p hp
    simp only [keysMin, Option.some.injEq] at h
    cases hmr : keysMin rest with
    | none =>
      have hre : rest = [] := keysMin_eq_none_iff.mp hmr
      subst hre
      simp only [keysMin] at h
      simp only [List.mem_singleton] at hp
      subst hp
      show t0 ≤ t
      omega
    | some s =>
      rw [hmr] at h
      rcases List.mem_cons.mp hp with hh | hh
      · subst hh
        show t0 ≤ t
        simp only [Nat.min_def] at h
        split_ifs at h <;> omega
      · have hs := ih hmr p hh
        simp only [Nat.min_def] at h
        split_ifs at h <;> omega

theorem keysMax_ge {m : List (Nat × α)} {t1 : Nat} (h : keysMax m = some t1) :
    ∀ p ∈ m, p.1 ≤ t1 := by
  induction m generalizing t1 with
  | nil => simp
  | cons q rest ih =>
    obtain ⟨t, a⟩ := q
    intro p hp
    simp only [keysMax, Option.some.injEq] at h
    cases hmr : keysMax rest with
    | none =>
      have hre : rest = [] := keysMax_eq_none_iff.mp hmr
      subst hre
      simp only [keysMax] at h
      simp only [List.mem_singleton] at hp
      subst hp
      show t ≤ t1
      omega
    | some s =>
      rw [hmr] at h
      rcases List.mem_cons.mp hp with hh | hh
      · subst hh
        show t ≤ t1
        simp only [Nat.max_def] at h
        split_ifs at h <;> omega
      · have hs := ih hmr p hh
        simp only [Nat.max_def] at h
        split_ifs at h <;> omega

theorem keysMax_mem {m : List (Nat × α)} {t1 : Nat} (h : keysMax m = some t1) :
    ∃ p ∈ m, p.1 = t1 := by
  induction m generalizing t1 with
  | nil => simp [keysMax] at h
  | cons q rest ih =>
    obtain ⟨t, a⟩ := q
    simp only [keysMax, Option.some.injEq] at h
    cases hmr : keysMax rest with
    | none =>
      rw [hmr] at h
      refine ⟨(t, a), List.mem_cons_self _ _, ?_⟩
      show t = t1
      exact h
    | some s =>
      rw [hmr] at h
      by_cases hts : t ≤ s
      · obtain ⟨p, hp, hps⟩ := ih hmr
        refine ⟨p, List.mem_cons_of_mem _ hp, ?_⟩
        simp only [Nat.max_def] at h
        split_ifs at h <;> omega
      · refine ⟨(t, a), List.mem_cons_self _ _, ?_⟩
        show t = t1
        simp only [Nat.max_def] at h
        split_ifs at h <;> omega

theorem keysMin_mem {m : List (Nat × α)} {t0 : Nat} (h : keysMin m = some t0) :
    ∃ p ∈ m, p.1 = t0 := by
  induction m generalizing t0 with
  | nil => simp [keysMin] at h
  | cons q rest ih =>
    obtain ⟨t, a⟩ := q
    simp only [keysMin, Option.some.injEq] at h
    cases hmr : keysMin rest with
    | none =>
      rw [hmr] at h
      refine ⟨(t, a), List.mem_cons_self _ _, ?_⟩
      show t = t0
      exact h
    | some s =>
      rw [hmr] at h
      by_cases hts : s ≤ t
      · obtain ⟨p, hp, hps⟩ := ih hmr
        refine ⟨p, List.mem_cons_of_mem _ hp, ?_⟩
        simp only [Nat.min_def] at h
        split_ifs at h <;> omega
      · refine ⟨(t, a), List.mem_cons_self _ _, ?_⟩
        show t = t0
        simp only [Nat.min_def] at h
        split_ifs at h <;> omega

/-- Combine a candidate minimum with an optional current minimum. -/
def minCombine (t : Nat) : Option Nat → Nat
  | none => t
  | some s => Nat.min t s

end MinMaxLemmas

section TimeMapLemmas

variable {V : Type}

theorem tmPush_ne_nil (t : Nat) (v : V) (m : TimeMap V) : tmPush t v m ≠ [] := by
  cases m with
  | nil => simp [tmPush]
  | cons q rest =>
    obtain ⟨s, l⟩ := q
    by_cases h1 : t < s <;> by_cases h2 : t = s <;> simp [tmPush, h1, h2]

theorem tmInsertReplace_ne_nil (t : Nat) (v : V) (m : TimeMap V) :
    tmInsertReplace t v m ≠ [] := by
  cases m with
  | nil => simp [tmInsertReplace]
  | cons q rest =>
    obtain ⟨s, l⟩ := q
    by_cases h1 : t < s <;> by_cases h2 : t = s <;> simp [tmInsertReplace, h1, h2]

theorem keysMin_tmPush (t : Nat) (v : V) (m : TimeMap V) :
    keysMin (tmPush t v m) = some (minCombine t (keysMin m)) := by
  induction m with
  | nil => simp [tmPush, keysMin, minCombine]
  | cons q rest ih =>
    obtain ⟨s, l⟩ := q
    by_cases h1 : t < s
    · simp only [tmPush, if_pos h1, keysMin, minCombine]
    · by_cases h2 : t = s
      · subst h2
        simp only [tmPush, Nat.lt_irrefl, if_false, if_neg h1, if_pos rfl, keysMin, minCombine]
        cases hmr : keysMin rest <;> simp only [Option.some.injEq] <;>
          simp only [Nat.min_def] <;> split_ifs <;> omega
      · simp only [tmPush, if_neg h1, if_neg h2, keysMin, ih, minCombine]
        cases hmr : keysMin rest <;> simp only [minCombine, Option.some.injEq] <;>
          simp only [Nat.min_def] <;> split_ifs <;> omega

theorem keysMin_tmInsertReplace (t : Nat) (v : V) (m : TimeMap V) :
    keysMin (tmInsertReplace t v m) = some (minCombine t (keysMin m)) := by
  induction m with
  | nil => simp [tmInsertReplace, keysMin, minCombine]
  | cons q rest ih =>
    obtain ⟨s, l⟩ := q
    by_cases h1 : t < s
    · simp only [tmInsertReplace, if_pos h1, keysMin, minCombine]
    · by_cases h2 : t = s
      · subst h2
        simp only [tmInsertReplace, Nat.lt_irrefl, if_false, if_neg h1, if_pos rfl, keysMin,
          minCombine]
        cases hmr : keysMin rest <;> simp only [Option.some.injEq] <;>
          simp only [Nat.min_def] <;> split_ifs <;> omega
      · simp only [tmInsertReplace, if_neg h1, if_neg h2, keysMin, ih, minCombine]
        cases hmr : keysMin rest <;> simp only [minCombine, Option.some.injEq] <;>
          simp only [Nat.min_def] <;> split_ifs <;> omega

end TimeMapLemmas

section ModifyLemmas

variable {κ : Type} {α : Type} [DecidableEq κ]

theorem map_fst_modifyA (key : κ) (f : α → α) (l : List (κ × α)) :
    (modifyA key f l).map Prod.fst = l.map Prod.fst := by
  induction l with
  | nil => simp [modifyA]
  | cons q rest ih =>
    obtain ⟨k, a⟩ := q
    by_cases hk : k = key <;> simp [modifyA, hk, ih]

theorem keysMin_map_fst_eq {α' : Type} {m : List (Nat × α)} {m' : List (Nat × α')}
    (h : m.map Prod.fst = m'.map Prod.fst) : keysMin m = keysMin m' := by
  induction m generalizing m' with
  | nil =>
    cases m' with
    | nil => rfl
    | cons q rest => simp at h
  | cons q rest ih =>
    cases m' with
    | nil => simp at h
    | cons q' rest' =>
      obtain ⟨t, a⟩ := q
      obtain ⟨t', a'⟩ := q'
      simp only [List.map_cons, List.cons.injEq] at h
      simp only [keysMin, h.1, ih h.2]

end ModifyLemmas

section ExpirationLemmas

variable {K : Type} [DecidableEq K]

theorem bucketsOf_nil (k : K) : bucketsOf k ([] : Expirations K) = [] := rfl

theorem bucketsOf_eq_nil_iff {k : K} {e : Expirations K} :
    bucketsOf k e = [] ↔ ∀ b ∈ e, k ∉ b.2 := by
  simp [bucketsOf, List.filter_eq_nil_iff]

theorem bucketsOf_cons_mem {k : K} {s : Nat} {ks : List K} {rest : Expirations K}
    (h : k ∈ ks) : bucketsOf k ((s, ks) :: rest) = s :: bucketsOf k rest := by
  simp [bucketsOf, h]

theorem bucketsOf_cons_not_mem {k : K} {s : Nat} {ks : List K} {rest : Expirations K}
    (h : k ∉ ks) : bucketsOf k ((s, ks) :: rest) = bucketsOf k rest := by
  simp [bucketsOf, h]

theorem bucketsOf_single_elim {k : K} {e : Expirations K} {t : Nat}
    (h : bucketsOf k e = [t]) : ∃ b ∈ e, b.1 = t ∧ k ∈ b.2 := by
  induction e with
  | nil => simp [bucketsOf] at h
  | cons b rest ih =>
    obtain ⟨s, ks⟩ := b
    by_cases hk : k ∈ ks
    · rw [bucketsOf_cons_mem hk] at h
      simp only [List.cons.injEq] at h
      exact ⟨(s, ks), List.mem_cons_self _ _, h.1, hk⟩
    · rw [bucketsOf_cons_not_mem hk] at h
      obtain ⟨b, hb, hb1, hb2⟩ := ih h
      exact ⟨b, List.mem_cons_of_mem _ hb, hb1, hb2⟩

theorem mem_of_bucketsOf {k : K} {e : Expirations K} {t : Nat}
    (hmem : t ∈ bucketsOf k e) : ∃ b ∈ e, b.1 = t ∧ k ∈ b.2 := by
  simp only [bucketsOf, List.mem_map, List.mem_filter] at hmem
  obtain ⟨b, ⟨hb, hkb⟩, hbt⟩ := hmem
  exact ⟨b, hb, hbt, by simpa using hkb⟩

theorem bucketsOf_expAddKey_self {k : K} {e : Expirations K} (t : Nat)
    (h : bucketsOf k e = []) : bucketsOf k (expAddKey t k e) = [t] := by
  induction e with
  | nil => simp [expAddKey, bucketsOf]
  | cons b rest ih =>
    obtain ⟨s, ks⟩ := b
    rw [bucketsOf_eq_nil_iff] at h
    have hks : k ∉ ks := h (s, ks) (List.mem_cons_self _ _)
    have hrest : bucketsOf k rest = [] :=
      bucketsOf_eq_nil_iff.mpr (fun b hb => h b (List.mem_cons_of_mem _ hb))
    by_cases h1 : t < s
    · simp only [expAddKey, if_pos h1]
      rw [bucketsOf_cons_mem (List.mem_singleton.mpr rfl), bucketsOf_cons_not_mem hks, hrest]
    · by_cases h2 : t = s
      · simp only [expAddKey, if_neg h1, if_pos h2, if_neg hks]
        have : k ∈ ks ++ [k] := by simp
        rw [bucketsOf_cons_mem this, hrest, h2]
      · simp only [expAddKey, if_neg h1, if_neg h2]
        rw [bucketsOf_cons_not_mem hks, ih hrest]

theorem bucketsOf_expAddKey_ne {k k' : K} {e : Expirations K} (t : Nat) (hne : k' ≠ k) :
    bucketsOf k' (expAddKey t k e) = bucketsOf k' e := by
  induction e with
  | nil =>
    simp only [expAddKey]
    rw [bucketsOf_cons_not_mem (by simpa using hne)]
  | cons b rest ih =>
    obtain ⟨s, ks⟩ := b
    by_cases h1 : t < s
    · simp only [expAddKey, if_pos h1]
      rw [bucketsOf_cons_not_mem (by simpa using hne)]
    · by_cases h2 : t = s
      · simp only [expAddKey, if_neg h1, if_pos h2]
        by_cases hks : k ∈ ks
        · rw [if_pos hks]
        · rw [if_neg hks]
          by_cases hk' : k' ∈ ks
          · rw [bucketsOf_cons_mem (by simp [hk']), bucketsOf_cons_mem hk']
          · rw [bucketsOf_cons_not_mem (by simp [hk', hne]), bucketsOf_cons_not_mem hk']
      · simp only [expAddKey, if_neg h1, if_neg h2]
        by_cases hk' : k' ∈ ks
        · rw [bucketsOf_cons_mem hk', bucketsOf_cons_mem hk', ih]
        · rw [bucketsOf_cons_not_mem hk', bucketsOf_cons_not_mem hk', ih]

theorem bucketsOf_expDropKeyAt_ne {k k' : K} {e : Expirations K} (t : Nat) (hne : k' ≠ k) :
    bucketsOf k' (expDropKeyAt t k e) = bucketsOf k' e := by
  induction e with
  | nil => simp [expDropKeyAt]
  | cons b rest ih =>
    obtain ⟨s, ks⟩ := b
    by_cases h2 : t = s
    · simp only [expDropKeyAt, if_pos h2]
      by_cases hnil : ks.erase k = []
      · rw [if_pos hnil]
        have hk' : k' ∉ ks := by
          intro hmem
          have : k' ∈ ks.erase k := (List.mem_erase_of_ne hne).mpr hmem
          rw [hnil] at this
          simp at this
        rw [bucketsOf_cons_not_mem hk']
      · rw [if_neg hnil]
        by_cases hk' : k' ∈ ks
        · rw [bucketsOf_cons_mem ((List.mem_erase_of_ne hne).mpr hk'), bucketsOf_cons_mem hk']
        · rw [bucketsOf_cons_not_mem (fun hc => hk' ((List.mem_erase_of_ne hne).mp hc)),
            bucketsOf_cons_not_mem hk']
    · simp only [expDropKeyAt, if_neg h2]
      by_cases hk' : k' ∈ ks
      · rw [bucketsOf_cons_mem hk', bucketsOf_cons_mem hk', ih]
      · rw [bucketsOf_cons_not_mem hk', bucketsOf_cons_not_mem hk', ih]

theorem bucketsOf_expDropKeyAt_self {k : K} {e : Expirations K} {t : Nat}
    (hnd : List.Pairwise (· < ·) (e.map Prod.fst))
    (hb : ∀ b ∈ e, b.2.Nodup)
    (h : bucketsOf k e = [t]) : bucketsOf k (expDropKeyAt t k e) = [] := by
  induction e with
  | nil => simp [expDropKeyAt, bucketsOf]
  | cons b rest ih =>
    obtain ⟨s, ks⟩ := b
    simp only [List.map_cons, List.pairwise_cons] at hnd
    have hksnd : ks.Nodup := hb (s, ks) (List.mem_cons_self _ _)
    by_cases hk : k ∈ ks
    · rw [bucketsOf_cons_mem hk] at h
      simp only [List.cons.injEq] at h
      obtain ⟨hst, hrest⟩ := h
      simp only [expDropKeyAt, if_pos hst.symm]
      have hkerase : k ∉ ks.erase k := hksnd.not_mem_erase
      by_cases hnil : ks.erase k = []
      · rw [if_pos hnil]
        exact hrest
      · rw [if_neg hnil]
        rw [bucketsOf_cons_not_mem hkerase]
        exact hrest
    · rw [bucketsOf_cons_not_mem hk] at h
      by_cases h2 : t = s
      · -- the bucket at t is this one, but k sits in a later bucket at the
        -- same time: impossible with strictly ascending times
        exfalso
        obtain ⟨b', hb', hb'1, hb'2⟩ := bucketsOf_single_elim h
        have : s < b'.1 := hnd.1 b'.1 (List.mem_map.mpr ⟨b', hb', rfl⟩)
        omega
      · simp only [expDropKeyAt, if_neg h2]
        rw [bucketsOf_cons_not_mem hk]
        exact ih hnd.2 (fun b hbm => hb b (List.mem_cons_of_mem _ hbm)) h

theorem mem_map_fst_expAddKey {y t : Nat} {k : K} {e : Expirations K}
    (h : y ∈ (expAddKey t k e).map Prod.fst) : y = t ∨ y ∈ e.map Prod.fst := by
  induction e with
  | nil => simp [expAddKey] at h; exact Or.inl h
  | cons b rest ih =>
    obtain ⟨s, ks⟩ := b
    by_cases h1 : t < s
    · simp only [expAddKey, if_pos h1, List.map_cons, List.mem_cons] at h
      rcases h with h | h | h
      · exact Or.inl h
      · exact Or.inr (by simp [h])
      · exact Or.inr (by simp [h])
    · by_cases h2 : t = s
      · simp only [expAddKey, if_neg h1, if_pos h2, List.map_cons, List.mem_cons] at h
        rcases h with h | h
        · exact Or.inr (by simp [h])
        · exact Or.inr (by simp [h])
      · simp only [expAddKey, if_neg h1, if_neg h2, List.map_cons, List.mem_cons] at h
        rcases h with h | h
        · exact Or.inr (by simp [h])
        · rcases ih h with h' | h'
          · exact Or.inl h'
          · exact Or.inr (by simp [h'])

theorem pairwise_expAddKey {t : Nat} {k : K} {e : Expirations K}
    (h : List.Pairwise (· < ·) (e.map Prod.fst)) :
    List.Pairwise (· < ·) ((expAddKey t k e).map Prod.fst) := by
  induction e with
  | nil => simp [expAddKey]
  | cons b rest ih =>
    obtain ⟨s, ks⟩ := b
    simp only [List.map_cons, List.pairwise_cons] at h
    by_cases h1 : t < s
    · simp only [expAddKey, if_pos h1, List.map_cons, List.pairwise_cons]
      refine ⟨?_, h.1, h.2⟩
      intro y hy
      rcases List.mem_cons.mp hy with hh | hh
      · omega
      · have := h.1 y hh
        omega
    · by_cases h2 : t = s
      · simp only [expAddKey, if_neg h1, if_pos h2, List.map_cons, List.pairwise_cons]
        exact ⟨h.1, h.2⟩
      · simp only [expAddKey, if_neg h1, if_neg h2, List.map_cons, List.pairwise_cons]
        refine ⟨?_, ih h.2⟩
        intro y hy
        rcases mem_map_fst_expAddKey hy with hh | hh
        · omega
        · exact h.1 y hh

theorem map_fst_expDropKeyAt_sublist (t : Nat) (k : K) (e : Expirations K) :
    ((expDropKeyAt t k e).map Prod.fst).Sublist (e.map Prod.fst) := by
  induction e with
  | nil => simp [expDropKeyAt]
  | cons b rest ih =>
    obtain ⟨s, ks⟩ := b
    by_cases h2 : t = s
    · simp only [expDropKeyAt, if_pos h2]
      by_cases hnil : ks.erase k = []
      · rw [if_pos hnil]
        exact List.sublist_cons_self _ _
      · rw [if_neg hnil]
        simp only [List.map_cons]
        exact (List.Sublist.refl _).cons₂ s
    · simp only [expDropKeyAt, if_neg h2, List.map_cons]
      exact ih.cons₂ s

theorem pairwise_expDropKeyAt {t : Nat} {k : K} {e : Expirations K}
    (h : List.Pairwise (· < ·) (e.map Prod.fst)) :
    List.Pairwise (· < ·) ((expDropKeyAt t k e).map Prod.fst) :=
  h.sublist (map_fst_expDropKeyAt_sublist t k e)

theorem nodup_buckets_expAddKey {t : Nat} {k : K} {e : Expirations K}
    (h : ∀ b ∈ e, b.2.Nodup) : ∀ b ∈ expAddKey t k e, b.2.Nodup := by
  induction e with
  | nil =>
    simp only [expAddKey]
    intro b hb
    simp only [List.mem_singleton] at hb
    rw [hb]
    exact List.nodup_singleton k
  | cons q rest ih =>
    obtain ⟨s, ks⟩ := q
    have hks : ks.Nodup := h (s, ks) (List.mem_cons_self _ _)
    have hrest : ∀ b ∈ rest, b.2.Nodup := fun b hb => h b (List.mem_cons_of_mem _ hb)
    by_cases h1 : t < s
    · simp only [expAddKey, if_pos h1]
      intro b hb
      rcases List.mem_cons.mp hb with hh | hh
      · rw [hh]; exact List.nodup_singleton k
      · exact h b hh
    · by_cases h2 : t = s
      · simp only [expAddKey, if_neg h1, if_pos h2]
        intro b hb
        rcases List.mem_cons.mp hb with hh | hh
        · rw [hh]
          by_cases hkm : k ∈ ks
          · rw [if_pos hkm]; exact hks
          · rw [if_neg hkm]
            refine List.Nodup.append hks (List.nodup_singleton k) ?_
            intro a ha hamem
            simp only [List.mem_singleton] at hamem
            subst hamem
            exact hkm ha
        · exact hrest b hh
      · simp only [expAddKey, if_neg h1, if_neg h2]
        intro b hb
        rcases List.mem_cons.mp hb with hh | hh
        · rw [hh]; exact hks
        · exact ih hrest b hh

theorem nodup_buckets_expDropKeyAt {t : Nat} {k : K} {e : Expirations K}
    (h : ∀ b ∈ e, b.2.Nodup) : ∀ b ∈ expDropKeyAt t k e, b.2.Nodup := by
  induction e with
  | nil => simp [expDropKeyAt]
  | cons q rest ih =>
    obtain ⟨s, ks⟩ := q
    have hks : ks.Nodup := h (s, ks) (List.mem_cons_self _ _)
    have hrest : ∀ b ∈ rest, b.2.Nodup := fun b hb => h b (List.mem_cons_of_mem _ hb)
    by_cases h2 : t = s
    · simp only [expDropKeyAt, if_pos h2]
      by_cases hnil : ks.erase k = []
      · rw [if_pos hnil]; exact hrest
      · rw [if_neg hnil]
        intro b hb
        rcases List.mem_cons.mp hb with hh | hh
        · rw [hh]; exact hks.erase k
        · exact hrest b hh
    · simp only [expDropKeyAt, if_neg h2]
      intro b hb
      rcases List.mem_cons.mp hb with hh | hh
      · rw [hh]; exact hks
      · exact ih hrest b hh

theorem mem_bucket_expAddKey_elim {t : Nat} {k : K} {e : Expirations K} :
    ∀ b ∈ expAddKey t k e, ∀ k' ∈ b.2, k' = k ∨ ∃ b' ∈ e, k' ∈ b'.2 := by
  induction e with
  | nil =>
    simp only [expAddKey]
    intro b hb k' hk'
    simp only [List.mem_singleton] at hb
    rw [hb] at hk'
    simp only [List.mem_singleton] at hk'
    exact Or.inl hk'
  | cons q rest ih =>
    obtain ⟨s, ks⟩ := q
    intro b hb k' hk'
    by_cases h1 : t < s
    · simp only [expAddKey, if_pos h1] at hb
      rcases List.mem_cons.mp hb with hh | hh
      · rw [hh] at hk'
        simp only [List.mem_singleton] at hk'
        exact Or.inl hk'
      · exact Or.inr ⟨b, hh, hk'⟩
    · by_cases h2 : t = s
      · simp only [expAddKey, if_neg h1, if_pos h2] at hb
        rcases List.mem_cons.mp hb with hh | hh
        · rw [hh] at hk'
          by_cases hkm : k ∈ ks
          · rw [if_pos hkm] at hk'
            exact Or.inr ⟨(s, ks), List.mem_cons_self _ _, hk'⟩
          · rw [if_neg hkm] at hk'
            simp only [List.mem_append, List.mem_singleton] at hk'
            rcases hk' with hk' | hk'
            · exact Or.inr ⟨(s, ks), List.mem_cons_self _ _, hk'⟩
            · exact Or.inl hk'
        · exact Or.inr ⟨b, List.mem_cons_of_mem _ hh, hk'⟩
      · simp only [expAddKey, if_neg h1, if_neg h2] at hb
        rcases List.mem_cons.mp hb with hh | hh
        · rw [hh] at hk'
          exact Or.inr ⟨(s, ks), List.mem_cons_self _ _, hk'⟩
        · rcases ih b hh k' hk' with h' | ⟨b', hb', hkb'⟩
          · exact Or.inl h'
          · exact Or.inr ⟨b', List.mem_cons_of_mem _ hb', hkb'⟩

theorem mem_bucket_expDropKeyAt_elim {t : Nat} {k : K} {e : Expirations K} :
    ∀ b ∈ expDropKeyAt t k e, ∀ k' ∈ b.2, ∃ b' ∈ e, k' ∈ b'.2 := by
  induction e with
  | nil => simp [expDropKeyAt]
  | cons q rest ih =>
    obtain ⟨s, ks⟩ := q
    intro b hb k' hk'
    by_cases h2 : t = s
    · simp only [expDropKeyAt, if_pos h2] at hb
      by_cases hnil : ks.erase k = []
      · rw [if_pos hnil] at hb
        exact ⟨b, List.mem_cons_of_mem _ hb, hk'⟩
      · rw [if_neg hnil] at hb
        rcases List.mem_cons.mp hb with hh | hh
        · rw [hh] at hk'
          exact ⟨(s, ks), List.mem_cons_self _ _, (List.erase_sublist k ks).subset hk'⟩
        · exact ⟨b, List.mem_cons_of_mem _ hh, hk'⟩
    · simp only [expDropKeyAt, if_neg h2] at hb
      rcases List.mem_cons.mp hb with hh | hh
      · rw [hh] at hk'
        exact ⟨(s, ks), List.mem_cons_self _ _, hk'⟩
      · obtain ⟨b', hb', hkb'⟩ := ih b hh k' hk'
        exact ⟨b', List.mem_cons_of_mem _ hb', hkb'⟩

end ExpirationLemmas

section RemoveKeyHelpers

variable {K : Type} [DecidableEq K]

theorem map_fst_eraseBuckets (k : K) (e : Expirations K) :
    ((e.map (fun b => (b.1, b.2.erase k))).map Prod.fst) = e.map Prod.fst := by
  simp [List.map_map, Function.comp]

theorem bucketsOf_eraseBuckets_ne {k k' : K} (e : Expirations K) (hne : k' ≠ k) :
    bucketsOf k' (e.map (fun b => (b.1, b.2.erase k))) = bucketsOf k' e := by
  induction e with
  | nil => simp [bucketsOf]
  | cons b rest ih =>
    obtain ⟨s, ks⟩ := b
    simp only [List.map_cons]
    by_cases hk' : k' ∈ ks
    · rw [bucketsOf_cons_mem (show k' ∈ ks.erase k from (List.mem_erase_of_ne hne).mpr hk'),
        bucketsOf_cons_mem hk', ih]
    · rw [bucketsOf_cons_not_mem (show k' ∉ ks.erase k from
        fun hc => hk' ((List.mem_erase_of_ne hne).mp hc)), bucketsOf_cons_not_mem hk', ih]

theorem keysMin_toList_ne_nil {α : Type} {m : List (Nat × α)} (h : m ≠ []) :
    (keysMin m).toList ≠ [] := by
  cases m with
  | nil => simp at h
  | cons q rest => simp [keysMin]

end RemoveKeyHelpers

section InvariantPreservation

variable {K V : Type} [DecidableEq K] [DecidableEq V]

theorem cacheInsert_inv (t : Nat) (k : K) (v : V) (c : KTMCache K V) (h : CacheInv c) :
    CacheInv (cacheInsert t k v c) := by
  obtain ⟨h1, h2, h3, h4, h5⟩ := h
  cases hlk : lookupA k c.values with
  | none =>
    have hknotin : k ∉ c.values.map Prod.fst := lookupA_eq_none_iff.mp hlk
    have hbnil : bucketsOf k c.expirations = [] := by
      rw [bucketsOf_eq_nil_iff]
      intro b hb hkb
      obtain ⟨p, hp, hpk⟩ := h5 b hb k hkb
      exact hknotin (List.mem_map.mpr ⟨p, hp, hpk⟩)
    simp only [cacheInsert, hlk]
    refine ⟨nodup_map_fst_insertA _ _ _ h1, pairwise_expAddKey h2,
      nodup_buckets_expAddKey h3, ?_, ?_⟩
    · intro p hp
      rcases mem_insertA_elim h1 hp with hh | ⟨hh, hpk⟩
      · rw [hh]
        refine ⟨by simp, ?_⟩
        rw [bucketsOf_expAddKey_self t hbnil]
        simp [keysMin]
      · obtain ⟨hne, hbk⟩ := h4 p hh
        exact ⟨hne, by rw [bucketsOf_expAddKey_ne t hpk, hbk]⟩
    · intro b hb k' hk'
      rcases mem_bucket_expAddKey_elim b hb k' hk' with hh | ⟨b', hb', hkb'⟩
      · exact ⟨(k, [(t, [v])]), self_mem_insertA _ _ _, hh.symm ▸ rfl⟩
      · obtain ⟨p, hp, hpk⟩ := h5 b' hb' k' hkb'
        have hpkne : p.1 ≠ k := by
          intro hc
          exact hknotin (List.mem_map.mpr ⟨p, hp, hc⟩)
        exact ⟨p, mem_insertA_of_ne _ _ hp hpkne, hpk⟩
  | some m =>
    have hmmem : (k, m) ∈ c.values := mem_of_lookupA_eq_some hlk
    obtain ⟨hmne, hbk⟩ := h4 (k, m) hmmem
    cases hkm : keysMin m with
    | none => exact absurd (keysMin_eq_none_iff.mp hkm) hmne
    | some ce =>
      have hbk' : bucketsOf k c.expirations = [ce] := by
        rw [hbk, hkm]
        rfl
      by_cases hlt : t < ce
      · simp only [cacheInsert, hlk, hkm, if_pos hlt]
        refine ⟨nodup_map_fst_insertA _ _ _ h1,
          pairwise_expAddKey (pairwise_expDropKeyAt h2),
          nodup_buckets_expAddKey (nodup_buckets_expDropKeyAt h3), ?_, ?_⟩
        · intro p hp
          rcases mem_insertA_elim h1 hp with hh | ⟨hh, hpk⟩
          · rw [hh]
            refine ⟨tmInsertReplace_ne_nil t v m, ?_⟩
            have hdrop : bucketsOf k (expDropKeyAt ce k c.expirations) = [] :=
              bucketsOf_expDropKeyAt_self h2 h3 hbk'
            rw [bucketsOf_expAddKey_self t hdrop, keysMin_tmInsertReplace, hkm]
            have : minCombine t (some ce) = t := by
              simp only [minCombine, Nat.min_def]
              split_ifs <;> omega
            rw [this]
            rfl
          · obtain ⟨hne, hbkp⟩ := h4 p hh
            refine ⟨hne, ?_⟩
            rw [bucketsOf_expAddKey_ne t hpk, bucketsOf_expDropKeyAt_ne ce hpk, hbkp]
        · intro b hb k' hk'
          rcases mem_bucket_expAddKey_elim b hb k' hk' with hh | ⟨b', hb', hkb'⟩
          · exact ⟨(k, tmInsertReplace t v m), self_mem_insertA _ _ _, hh.symm ▸ rfl⟩
          · obtain ⟨b'', hb'', hkb''⟩ := mem_bucket_expDropKeyAt_elim b' hb' k' hkb'
            obtain ⟨p, hp, hpk⟩ := h5 b'' hb'' k' hkb''
            by_cases hpkk : p.1 = k
            · exact ⟨(k, tmInsertReplace t v m), self_mem_insertA _ _ _, by
                rw [hpk] at hpkk
                rw [hpkk]⟩
            · exact ⟨p, mem_insertA_of_ne _ _ hp hpkk, hpk⟩
      · simp only [cacheInsert, hlk, hkm, if_neg hlt]
        refine ⟨nodup_map_fst_insertA _ _ _ h1, h2, h3, ?_, ?_⟩
        · intro p hp
          rcases mem_insertA_elim h1 hp with hh | ⟨hh, hpk⟩
          · rw [hh]
            refine ⟨tmPush_ne_nil t v m, ?_⟩
            rw [keysMin_tmPush, hkm]
            have : minCombine t (some ce) = ce := by
              simp only [minCombine, Nat.min_def]
              split_ifs <;> omega
            rw [this, hbk', Option.toList]
          · exact h4 p hh
        · intro b hb k' hk'
          obtain ⟨p, hp, hpk⟩ := h5 b hb k' hk'
          by_cases hpkk : p.1 = k
          · exact ⟨(k, tmPush t v m), self_mem_insertA _ _ _, by
              rw [hpk] at hpkk
              rw [hpkk]⟩
          · exact ⟨p, mem_insertA_of_ne _ _ hp hpkk, hpk⟩

theorem cacheRemoveKey_inv (k : K) (c : KTMCache K V) (h : CacheInv c) :
    CacheInv (cacheRemoveKey k c) := by
  obtain ⟨h1, h2, h3, h4, h5⟩ := h
  simp only [cacheRemoveKey]
  refine ⟨nodup_map_fst_eraseA _ _ h1, ?_, ?_, ?_, ?_⟩
  · rw [map_fst_eraseBuckets]
    exact h2
  · intro b hb
    obtain ⟨b', hb', hbeq⟩ := List.mem_map.mp hb
    rw [← hbeq]
    exact (h3 b' hb').erase k
  · intro p hp
    have hpv : p ∈ c.values := mem_eraseA_elim hp
    have hpk : p.1 ≠ k := not_fst_eraseA h1 p hp
    obtain ⟨hne, hbk⟩ := h4 p hpv
    exact ⟨hne, by rw [bucketsOf_eraseBuckets_ne _ hpk, hbk]⟩
  · intro b hb k' hk'
    obtain ⟨b', hb', hbeq⟩ := List.mem_map.mp hb
    rw [← hbeq] at hk'
    have hk'mem : k' ∈ b'.2 := (List.erase_sublist k b'.2).subset hk'
    have hk'ne : k' ≠ k := ((h3 b' hb').mem_erase_iff.mp hk').1
    obtain ⟨p, hp, hpk⟩ := h5 b' hb' k' hk'mem
    refine ⟨p, mem_eraseA_of_ne _ hp ?_, hpk⟩
    rw [hpk]
    exact hk'ne

theorem cacheRemoveValue_inv (t : Nat) (k : K) (v : V) (c : KTMCache K V) (h : CacheInv c) :
    CacheInv (cacheRemoveValue t k v c) := by
  obtain ⟨h1, h2, h3, h4, h5⟩ := h
  cases hlk : lookupA k c.values with
  | none =>
    simp only [cacheRemoveValue, hlk]
    exact ⟨h1, h2, h3, h4, h5⟩
  | some m =>
    have hmmem : (k, m) ∈ c.values := mem_of_lookupA_eq_some hlk
    obtain ⟨hmne, hbk⟩ := h4 (k, m) hmmem
    simp only [cacheRemoveValue, hlk]
    have hfst : (modifyA t (fun l => l.filter (fun sv => sv ≠ v)) m).map Prod.fst =
        m.map Prod.fst := map_fst_modifyA _ _ _
    refine ⟨nodup_map_fst_insertA _ _ _ h1, h2, h3, ?_, ?_⟩
    · intro p hp
      rcases mem_insertA_elim h1 hp with hh | ⟨hh, hpk⟩
      · rw [hh]
        refine ⟨?_, ?_⟩
        · intro hc
          have hc' : modifyA t (fun l => l.filter (fun sv => sv ≠ v)) m = [] := hc
          rw [hc'] at hfst
          simp only [List.map_nil] at hfst
          exact hmne (List.map_eq_nil_iff.mp hfst.symm)
        · rw [keysMin_map_fst_eq hfst, hbk]
      · exact h4 p hh
    · intro b hb k' hk'
      obtain ⟨p, hp, hpk⟩ := h5 b hb k' hk'
      by_cases hpkk : p.1 = k
      · exact ⟨(k, modifyA t (fun l => l.filter (fun sv => sv ≠ v)) m),
          self_mem_insertA _ _ _, by
            rw [hpk] at hpkk
            rw [hpkk]⟩
      · exact ⟨p, mem_insertA_of_ne _ _ hp hpkk, hpk⟩

theorem applyOp_inv (c : KTMCache K V) (op : CacheOp K V) (h : CacheInv c) :
    CacheInv (applyOp c op) := by
  cases op with
  | ins t k v => exact cacheInsert_inv t k v c h
  | rmKey k => exact cacheRemoveKey_inv k c h
  | rmVal t k v => exact cacheRemoveValue_inv t k v c h

theorem empty_inv : CacheInv (KTMCache.empty : KTMCache K V) := by
  refine ⟨?_, ?_, ?_, ?_, ?_⟩ <;> simp [KTMCache.empty]

theorem foldl_applyOp_inv (ops : List (CacheOp K V)) :
    ∀ c : KTMCache K V, CacheInv c → CacheInv (ops.foldl applyOp c) := by
  induction ops with
  | nil => intro c h; exact h
  | cons op rest ih =>
    intro c h
    exact ih (applyOp c op) (applyOp_inv c op h)

theorem runOps_inv (ops : List (CacheOp K V)) : CacheInv (runOps ops) :=
  foldl_applyOp_inv ops KTMCache.empty empty_inv

end InvariantPreservation

section ExpireLemmas

variable {K V : Type} [DecidableEq K] [DecidableEq V]

/-- A key gathered by `expire_entries_before` can be processed without a
panic exactly when it is live: present in `values` with a non-empty map. -/
def keyLive (c : KTMCache K V) (k : K) : Prop :=
  match lookupA k c.values with
  | none => False
  | some m => m ≠ []

instance (c : KTMCache K V) (k : K) : Decidable (keyLive c k) := by
  unfold keyLive
  cases lookupA k c.values <;> infer_instance

theorem keyLive_iff {c : KTMCache K V} {k : K} :
    keyLive c k ↔ ∃ m, lookupA k c.values = some m ∧ m ≠ [] := by
  unfold keyLive
  cases h : lookupA k c.values <;> simp

theorem mem_expiredKeySet_iff {k : K} {time : Nat} {c : KTMCache K V} :
    k ∈ expiredKeySet time c ↔ ∃ b ∈ c.expirations, b.1 < time ∧ k ∈ b.2 := by
  simp only [expiredKeySet, List.mem_dedup, List.mem_flatMap, List.mem_filter,
    decide_eq_true_eq]
  constructor
  · rintro ⟨b, ⟨hb, hbt⟩, hkb⟩
    exact ⟨b, hb, hbt, hkb⟩
  · rintro ⟨b, hb, hbt, hkb⟩
    exact ⟨b, ⟨hb, hbt⟩, hkb⟩

theorem nodup_expiredKeySet (time : Nat) (c : KTMCache K V) :
    (expiredKeySet time c).Nodup :=
  List.nodup_dedup _

theorem expireStep_drop {c : KTMCache K V} {k : K} {time : Nat} {m : TimeMap V} {last : Nat}
    (hlk : lookupA k c.values = some m) (hmax : keysMax m = some last) (hle : last ≤ time) :
    expireStep time k c = some { c with values := eraseA k c.values } := by
  simp [expireStep, hlk, hmax, hle]

theorem expireStep_split {c : KTMCache K V} {k : K} {time : Nat} {m : TimeMap V} {last : Nat}
    (hlk : lookupA k c.values = some m) (hmax : keysMax m = some last) (hgt : time < last) :
    ∃ earliest, keysMin (m.filter (fun p => time ≤ p.1)) = some earliest ∧
      expireStep time k c = some
        { values := insertA k (m.filter (fun p => time ≤ p.1)) c.values
          expirations := expAddKey earliest k c.expirations } := by
  obtain ⟨p, hp, hpl⟩ := keysMax_mem hmax
  have hpf : p ∈ m.filter (fun p => time ≤ p.1) := by
    rw [List.mem_filter]
    refine ⟨hp, by simp; omega⟩
  have hne : m.filter (fun p => time ≤ p.1) ≠ [] := List.ne_nil_of_mem hpf
  cases hkm : keysMin (m.filter (fun p => time ≤ p.1)) with
  | none => exact absurd (keysMin_eq_none_iff.mp hkm) hne
  | some earliest =>
    refine ⟨earliest, rfl, ?_⟩
    have hnle : ¬ last ≤ time := by omega
    simp [expireStep, hlk, hmax, hnle, hkm]

theorem expireLoop_spec {time : Nat} :
    ∀ (ks : List K) (c : KTMCache K V),
    ks.Nodup →
    (c.values.map Prod.fst).Nodup →
    (∀ k ∈ ks, keyLive c k) →
    ∃ c', expireLoop time ks c = some c' ∧
      (∀ k, k ∉ ks → lookupA k c'.values = lookupA k c.values) ∧
      (∀ k ∈ ks, ∃ m last, lookupA k c.values = some m ∧ keysMax m = some last ∧
        ((last ≤ time ∧ lookupA k c'.values = none) ∨
         (time < last ∧ lookupA k c'.values = some (m.filter (fun p => time ≤ p.1))))) := by
  intro ks
  induction ks with
  | nil =>
    intro c hnd hvnd hlive
    exact ⟨c, rfl, fun k _ => rfl, by simp⟩
  | cons k rest ih =>
    intro c hnd hvnd hlive
    simp only [List.nodup_cons] at hnd
    have hkl := hlive k (List.mem_cons_self _ _)
    rw [keyLive_iff] at hkl
    obtain ⟨m, hlk, hmne⟩ := hkl
    cases hmax : keysMax m with
    | none => exact absurd (keysMax_eq_none_iff.mp hmax) hmne
    | some last =>
      by_cases hle : last ≤ time
      · -- whole-key removal
        have hstep := expireStep_drop hlk hmax hle
        have hvnd1 : ((eraseA k c.values).map Prod.fst).Nodup :=
          nodup_map_fst_eraseA _ _ hvnd
        have hlive1 : ∀ k' ∈ rest, keyLive { c with values := eraseA k c.values } k' := by
          intro k' hk'
          have hne : k' ≠ k := fun hc => hnd.1 (hc ▸ hk')
          rw [keyLive_iff]
          have hl := hlive k' (List.mem_cons_of_mem _ hk')
          rw [keyLive_iff] at hl
          obtain ⟨m', hm', hm'ne⟩ := hl
          refine ⟨m', ?_, hm'ne⟩
          show lookupA k' (eraseA k c.values) = some m'
          rw [lookupA_eraseA_ne k k' c.values hne]
          exact hm'
        obtain ⟨c', hloop, huntouched, hproc⟩ := ih _ hnd.2 hvnd1 hlive1
        refine ⟨c', ?_, ?_, ?_⟩
        · simp only [expireLoop, hstep]
          exact hloop
        · intro k0 hk0
          simp only [List.mem_cons] at hk0
          push_neg at hk0
          rw [huntouched k0 hk0.2]
          show lookupA k0 (eraseA k c.values) = lookupA k0 c.values
          exact lookupA_eraseA_ne k k0 c.values hk0.1
        · intro k0 hk0
          rcases List.mem_cons.mp hk0 with hh | hh
          · subst hh
            refine ⟨m, last, hlk, hmax, Or.inl ⟨hle, ?_⟩⟩
            rw [huntouched k0 hnd.1]
            show lookupA k0 (eraseA k0 c.values) = none
            exact lookupA_eraseA_self k0 c.values hvnd
          · have hne : k0 ≠ k := fun hc => hnd.1 (hc ▸ hh)
            obtain ⟨m', last', hm', hmax', hres⟩ := hproc k0 hh
            rw [show lookupA k0 (eraseA k c.values) = lookupA k0 c.values from
              lookupA_eraseA_ne k k0 c.values hne] at hm'
            exact ⟨m', last', hm', hmax', hres⟩
      · -- split at `time`
        have hgt : time < last := by omega
        obtain ⟨earliest, hkm, hstep⟩ := expireStep_split hlk hmax hgt
        have hvnd1 : ((insertA k (m.filter (fun p => time ≤ p.1)) c.values).map Prod.fst).Nodup :=
          nodup_map_fst_insertA _ _ _ hvnd
        have hlive1 : ∀ k' ∈ rest, keyLive
            { values := insertA k (m.filter (fun p => time ≤ p.1)) c.values
              expirations := expAddKey earliest k c.expirations } k' := by
          intro k' hk'
          have hne : k' ≠ k := fun hc => hnd.1 (hc ▸ hk')
          rw [keyLive_iff]
          have hl := hlive k' (List.mem_cons_of_mem _ hk')
          rw [keyLive_iff] at hl
          obtain ⟨m', hm', hm'ne⟩ := hl
          refine ⟨m', ?_, hm'ne⟩
          show lookupA k' (insertA k _ c.values) = some m'
          rw [lookupA_insertA_ne k k' _ c.values hne]
          exact hm'
        obtain ⟨c', hloop, huntouched, hproc⟩ := ih _ hnd.2 hvnd1 hlive1
        refine ⟨c', ?_, ?_, ?_⟩
        · simp only [expireLoop, hstep]
          exact hloop
        · intro k0 hk0
          simp only [List.mem_cons] at hk0
          push_neg at hk0
          rw [huntouched k0 hk0.2]
          show lookupA k0 (insertA k _ c.values) = lookupA k0 c.values
          exact lookupA_insertA_ne k k0 _ c.values hk0.1
        · intro k0 hk0
          rcases List.mem_cons.mp hk0 with hh | hh
          · subst hh
            refine ⟨m, last, hlk, hmax, Or.inr ⟨hgt, ?_⟩⟩
            rw [huntouched k0 hnd.1]
            show lookupA k0 (insertA k0 _ c.values) = some _
            exact lookupA_insertA_self k0 _ c.values
          · have hne : k0 ≠ k := fun hc => hnd.1 (hc ▸ hh)
            obtain ⟨m', last', hm', hmax', hres⟩ := hproc k0 hh
            rw [show lookupA k0 (insertA k (m.filter (fun p => time ≤ p.1)) c.values) =
                lookupA k0 c.values from
              lookupA_insertA_ne k k0 _ c.values hne] at hm'
            exact ⟨m', last', hm', hmax', hres⟩

theorem expireLoop_total {time : Nat} :
    ∀ (ks : List K) (c : KTMCache K V),
    ks.Nodup →
    (∀ k ∈ ks, keyLive c k) →
    ∃ c', expireLoop time ks c = some c' := by
  intro ks
  induction ks with
  | nil => exact fun c _ _ => ⟨c, rfl⟩
  | cons k rest ih =>
    intro c hnd hlive
    simp only [List.nodup_cons] at hnd
    have hkl := hlive k (List.mem_cons_self _ _)
    rw [keyLive_iff] at hkl
    obtain ⟨m, hlk, hmne⟩ := hkl
    cases hmax : keysMax m with
    | none => exact absurd (keysMax_eq_none_iff.mp hmax) hmne
    | some last =>
      by_cases hle : last ≤ time
      · have hstep := expireStep_drop hlk hmax hle
        have hlive1 : ∀ k' ∈ rest, keyLive { c with values := eraseA k c.values } k' := by
          intro k' hk'
          have hne : k' ≠ k := fun hc => hnd.1 (hc ▸ hk')
          rw [keyLive_iff]
          have hl := hlive k' (List.mem_cons_of_mem _ hk')
          rw [keyLive_iff] at hl
          obtain ⟨m', hm', hm'ne⟩ := hl
          refine ⟨m', ?_, hm'ne⟩
          show lookupA k' (eraseA k c.values) = some m'
          rw [lookupA_eraseA_ne k k' c.values hne]
          exact hm'
        obtain ⟨c', hloop⟩ := ih _ hnd.2 hlive1
        refine ⟨c', ?_⟩
        simp only [expireLoop, hstep]
        exact hloop
      · have hgt : time < last := by omega
        obtain ⟨earliest, hkm, hstep⟩ := expireStep_split hlk hmax hgt
        have hlive1 : ∀ k' ∈ rest, keyLive
            { values := insertA k (m.filter (fun p => time ≤ p.1)) c.values
              expirations := expAddKey earliest k c.expirations } k' := by
          intro k' hk'
          have hne : k' ≠ k := fun hc => hnd.1 (hc ▸ hk')
          rw [keyLive_iff]
          have hl := hlive k' (List.mem_cons_of_mem _ hk')
          rw [keyLive_iff] at hl
          obtain ⟨m', hm', hm'ne⟩ := hl
          refine ⟨m', ?_, hm'ne⟩
          show lookupA k' (insertA k _ c.values) = some m'
          rw [lookupA_insertA_ne k k' _ c.values hne]
          exact hm'
        obtain ⟨c', hloop⟩ := ih _ hnd.2 hlive1
        refine ⟨c', ?_⟩
        simp only [expireLoop, hstep]
        exact hloop

end ExpireLemmas

section SupportLemmas

theorem listMin_eq_none_iff {l : List Nat} : listMin l = none ↔ l = [] := by
  cases l <;> simp [listMin]

theorem listMax_eq_none_iff {l : List Nat} : listMax l = none ↔ l = [] := by
  cases l <;> simp [listMax]

theorem filterMap_id_ne_nil {l : List (Option Nat)} (hne : l ≠ []) (hall : none ∉ l) :
    l.filterMap id ≠ [] := by
  cases l with
  | nil => simp at hne
  | cons o rest =>
    cases o with
    | none => simp at hall
    | some a => simp [List.filterMap_cons]

theorem lookupA_updateA_self {κ α : Type} [DecidableEq κ]
    (key : κ) (dflt : α) (f : α → α) (l : List (κ × α)) :
    lookupA key (updateA key dflt f l) = some (f ((lookupA key l).getD dflt)) := by
  induction l with
  | nil => simp [updateA, lookupA]
  | cons p rest ih =>
    obtain ⟨k, a⟩ := p
    by_cases hk : k = key <;> simp [updateA, lookupA, hk, ih]

theorem finishSubtask_watermarks {merge : MergeRule} {os : OperatorStateM} {c : SubtaskMeta}
    {os' : OperatorStateM}
    {r : Option (List (String × TableConfigM) × List (String × TableMetaM))}
    (h : finishSubtask merge os c = some (os', r)) :
    os'.watermarks = os.watermarks ++ [c.watermark] := by
  simp only [finishSubtask] at h
  cases hft : finishTables c.table_configs os.table_state c.table_metadata with
  | none =>
    rw [hft] at h
    simp at h
  | some ts =>
    rw [hft] at h
    dsimp only [] at h
    by_cases hc : os.subtasks = os.subtasks_checkpointed + 1
    · rw [if_pos hc] at h
      cases h
      rfl
    · rw [if_neg hc] at h
      cases h
      rfl

/-- The UI event list recorded under `(operator_id, subtask_index)`, or `[]`
when the operator or task detail record does not exist yet. -/
def taskEvents (st : CheckpointStateM) (op : String) (idx : Nat) :
    List TaskCheckpointEventM :=
  match lookupA op st.operator_details with
  | none => []
  | some d =>
    match lookupA idx d.tasks with
    | none => []
    | some td => td.events

/-- The task detail record under `(operator_id, subtask_index)`, if present. -/
def taskDetail (st : CheckpointStateM) (op : String) (idx : Nat) :
    Option TaskCheckpointDetailM :=
  match lookupA op st.operator_details with
  | none => none
  | some d => lookupA idx d.tasks

end SupportLemmas

/-- C1: the spec asserts invariant I3 (each key with a non-empty timestamp map
sits in exactly the expiration bucket of its minimum timestamp) is preserved by
every sequence of cache operations, including `expire_entries_before` and the
façade's `clear_time_range`.  On the code this fails: `clear_time_range` never
touches `expirations`, and `expire_entries_before` never removes the buckets
below its cutoff.  Counterexample: after `insert(10,k,a); insert(20,k,b);
clear_time_range(k,[10,15))` the key's earliest timestamp is 20 but it still
sits in the bucket at 10; and after `insert(10,k,a); insert(30,k,c);
expire_entries_before(20)` the key sits in the buckets at 10 and 30 at once. -/
theorem C1_counterexample_clear_and_expire :
    ¬ I3 (clearTimeRange 0 10 15
      (cacheInsert 20 0 2 (cacheInsert 10 0 1 (KTMCache.empty : KTMCache Nat Nat)))) ∧
    expireEntriesBefore 20
      (cacheInsert 30 0 3 (cacheInsert 10 0 1 (KTMCache.empty : KTMCache Nat Nat)))
      = some (⟨[(0, [(30, [3])])], [(10, [0]), (30, [0])]⟩, [0]) ∧
    ¬ I3 (⟨[(0, [(30, [3])])], [(10, [0]), (30, [0])]⟩ : KTMCache Nat Nat) := by
  refine ⟨by decide, by decide, by decide⟩

/-- C1 (amended): invariant I3 is preserved by every sequence of the basic
cache mutations `insert`, `remove_key` and `remove_value` starting from the
empty cache; the claim's inclusion of `expire_entries_before` and
`clear_time_range` does not hold on the code. -/
theorem C1_basic_ops_preserve_I3 {K V : Type} [DecidableEq K] [DecidableEq V]
    (ops : List (CacheOp K V)) : I3 (runOps ops) := by
  obtain ⟨h1, h2, h3, h4, h5⟩ := runOps_inv ops
  intro p hp hpne
  exact (h4 p hp).2

/-- C3: evaluation of `expire_entries_before` at the spec's own example.  The
returned set is `{k}`, `values[k]` becomes `{20:[b], 30:[c]}` and `k` is added
to `expirations[20]` as claimed, but the bucket at 10 is NOT removed (the code
has no step removing buckets below the cutoff).  The stale bucket then breaks
the function's own assumptions: after `insert(10,k,a); expire_entries_before(15)`
the key is gone from `values` but still sits in the bucket at 10, and a second
`expire_entries_before(20)` panics on `values.get_mut(&key).unwrap()`
(modelled as `none`). -/
theorem C3_expire_leaves_stale_bucket :
    expireEntriesBefore 20
      (⟨[(0, [(10, [1]), (20, [2]), (30, [3])])], [(10, [0])]⟩ : KTMCache Nat Nat)
      = some (⟨[(0, [(20, [2]), (30, [3])])], [(10, [0]), (20, [0])]⟩, [0]) ∧
    expireEntriesBefore 15 (cacheInsert 10 0 1 (KTMCache.empty : KTMCache Nat Nat))
      = some (⟨[], [(10, [0])]⟩, [0]) ∧
    expireEntriesBefore 20 (⟨[], [(10, [0])]⟩ : KTMCache Nat Nat) = none := by
  refine ⟨by decide, by decide, by decide⟩

/-- C4: evaluation of the cache's `remove_value` at the failing input
`values[k][10] = [a, a]`.  The code uses `Vec::retain(!= v)` and removes BOTH
copies, leaving `[]`, while the claim (and the replay path of
`DataOperation::DeleteValue`, `removeFirst`) removes only the first copy,
leaving `[a]`. -/
theorem C4_remove_value_drops_all_copies :
    cacheRemoveValue 10 0 1 (⟨[(0, [(10, [1, 1])])], [(10, [0])]⟩ : KTMCache Nat Nat)
      = ⟨[(0, [(10, [])])], [(10, [0])]⟩ ∧
    removeFirst 1 [1, 1] = [1] := by
  refine ⟨by decide, by decide⟩

/-- C10 counterexample: `expire_entries_before` is NOT panic-free on states
reachable through the public façade.  `insert(10,k,a)` followed by
`clear_time_range(k, [0,100))` leaves `values[k]` as an empty map while `k`
still sits in `expirations[10]`; the next `expire_entries_before(20)` then
panics on `last_key_value().unwrap()` (modelled as `none`). -/
theorem C10_counterexample_clear_then_expire_panics :
    clearTimeRange 0 0 100 (cacheInsert 10 0 1 (KTMCache.empty : KTMCache Nat Nat))
      = ⟨[(0, [])], [(10, [0])]⟩ ∧
    expireEntriesBefore 20 (⟨[(0, [])], [(10, [0])]⟩ : KTMCache Nat Nat) = none := by
  refine ⟨by decide, by decide⟩

/-- C10 (amended): `expire_entries_before(t)` is panic-free exactly on the
states the claim describes, namely those where every key gathered from an
expiration bucket before `t` is present in `values` with a non-empty timestamp
map; such states are not guaranteed by the façade (see the counterexample). -/
theorem C10_expire_total_on_live_keys {K V : Type} [DecidableEq K] [DecidableEq V]
    (c : KTMCache K V) (t : Nat)
    (hlive : ∀ k ∈ expiredKeySet t c, keyLive c k) :
    ∃ r, expireEntriesBefore t c = some r := by
  obtain ⟨c', hloop⟩ := expireLoop_total (expiredKeySet t c) c (nodup_expiredKeySet t c) hlive
  refine ⟨(c', expiredKeySet t c), ?_⟩
  simp only [expireEntriesBefore]
  rw [hloop]

/-- Witness for C10 (amended) at a concrete live state. -/
theorem C10_expire_total_witness :
    ∃ r, expireEntriesBefore 20
      (⟨[(0, [(10, [1]), (30, [3])])], [(10, [0])]⟩ : KTMCache Nat Nat) = some r :=
  C10_expire_total_on_live_keys ⟨[(0, [(10, [1]), (30, [3])])], [(10, [0])]⟩ 20 (by decide)

/-- C2 counterexample: the claim quantifies over every cache state and keeps
`get_time_range(k, [t, ∞))` unchanged.  Both parts fail on the code.
(a) On a state where a key is missing from the expiration index (`values`
holds key 7 below the cutoff but `expirations` is empty),
`expire_entries_before(10)` touches nothing and `get_time_range(7, [0, 10))`
still returns a value.  (b) Even on a state satisfying the structural
invariant, `expire_entries_before(20)` drops the whole key when its last
timestamp equals 20 (the code compares `last <= time`), so
`get_time_range(k, [20, 21))` changes from `[b]` to `[]`. -/
theorem C2_counterexample_boundary_and_unindexed :
    expireEntriesBefore 10 (⟨[(7, [(5, [1])])], []⟩ : KTMCache Nat Nat)
      = some (⟨[(7, [(5, [1])])], []⟩, []) ∧
    getTimeRange 7 0 10 (⟨[(7, [(5, [1])])], []⟩ : KTMCache Nat Nat) = [1] ∧
    CacheInv (⟨[(0, [(10, [1]), (20, [2])])], [(10, [0])]⟩ : KTMCache Nat Nat) ∧
    expireEntriesBefore 20 (⟨[(0, [(10, [1]), (20, [2])])], [(10, [0])]⟩ : KTMCache Nat Nat)
      = some (⟨[], [(10, [0])]⟩, [0]) ∧
    getTimeRange 0 20 21 (⟨[(0, [(10, [1]), (20, [2])])], [(10, [0])]⟩ : KTMCache Nat Nat)
      = [2] ∧
    getTimeRange 0 20 21 (⟨[], [(10, [0])]⟩ : KTMCache Nat Nat) = [] := by
  refine ⟨by decide, by decide, by decide, by decide, by decide, by decide⟩

/-- C2 (amended): on a cache state satisfying the structural invariant
(`CacheInv`), `expire_entries_before(t)` completes without a panic,
`get_time_range(k, [UNIX_EPOCH, t))` afterwards returns the empty sequence for
every key, and `get_time_range(k, [s, e))` for every range strictly after `t`
is unchanged; entries at exactly `t` can be lost, so the claim's `[t, ∞)` is
weakened to `(t, ∞)`, and the claim's arbitrary state to an invariant state. -/
theorem C2_expire_range_equiv {K V : Type} [DecidableEq K] [DecidableEq V]
    (c : KTMCache K V) (t : Nat) (hinv : CacheInv c) :
    ∃ c' ks, expireEntriesBefore t c = some (c', ks) ∧
      (∀ k, getTimeRange k 0 t c' = []) ∧
      (∀ k s e, t < s → getTimeRange k s e c' = getTimeRange k s e c) := by
  obtain ⟨h1, h2, h3, h4, h5⟩ := hinv
  have hlive : ∀ k ∈ expiredKeySet t c, keyLive c k := by
    intro k hk
    rw [mem_expiredKeySet_iff] at hk
    obtain ⟨b, hb, hbt, hkb⟩ := hk
    obtain ⟨p, hp, hpk⟩ := h5 b hb k hkb
    rw [keyLive_iff]
    have hmem : (k, p.2) ∈ c.values := by
      rw [← hpk]
      exact hp
    exact ⟨p.2, lookupA_eq_some_of_mem hmem h1, (h4 p hp).1⟩
  obtain ⟨c', hloop, huntouched, hproc⟩ :=
    expireLoop_spec (expiredKeySet t c) c (nodup_expiredKeySet t c) h1 hlive
  refine ⟨c', expiredKeySet t c, ?_, ?_, ?_⟩
  · simp only [expireEntriesBefore]
    rw [hloop]
  · intro k
    by_cases hkin : k ∈ expiredKeySet t c
    · obtain ⟨m, last, hm, hmax, hres⟩ := hproc k hkin
      rcases hres with ⟨hle, hnone⟩ | ⟨hgt, hsome⟩
      · simp [getTimeRange, hnone]
      · simp only [getTimeRange, hsome]
        have hnil : (m.filter (fun p => t ≤ p.1)).filter
            (fun p => 0 ≤ p.1 ∧ p.1 < t) = [] := by
          rw [List.filter_eq_nil_iff]
          intro p hp
          rw [List.mem_filter] at hp
          simp only [decide_eq_true_eq] at hp ⊢
          intro hc
          omega
        rw [hnil]
        rfl
    · cases hlk : lookupA k c.values with
      | none => simp [getTimeRange, huntouched k hkin, hlk]
      | some m =>
        simp only [getTimeRange, huntouched k hkin, hlk]
        have hmem : (k, m) ∈ c.values := mem_of_lookupA_eq_some hlk
        obtain ⟨hmne, hbk⟩ := h4 (k, m) hmem
        cases hkm : keysMin m with
        | none => exact absurd (keysMin_eq_none_iff.mp hkm) hmne
        | some t0 =>
          have hbk' : bucketsOf k c.expirations = [t0] := by
            show bucketsOf (k, m).1 c.expirations = [t0]
            rw [hbk, hkm]
            rfl
          have ht0 : ¬ t0 < t := by
            intro hlt
            obtain ⟨b, hb, hb1, hkb⟩ := bucketsOf_single_elim hbk'
            exact hkin (mem_expiredKeySet_iff.mpr ⟨b, hb, by omega, hkb⟩)
          have hall := keysMin_le hkm
          have hnil : m.filter (fun p => 0 ≤ p.1 ∧ p.1 < t) = [] := by
            rw [List.filter_eq_nil_iff]
            intro p hp
            have := hall p hp
            simp only [decide_eq_true_eq]
            intro hc
            omega
          rw [hnil]
          rfl
  · intro k s e hst
    by_cases hkin : k ∈ expiredKeySet t c
    · obtain ⟨m, last, hm, hmax, hres⟩ := hproc k hkin
      rcases hres with ⟨hle, hnone⟩ | ⟨hgt, hsome⟩
      · simp only [getTimeRange, hnone, hm]
        have hallle := keysMax_ge hmax
        have hnil : m.filter (fun p => s ≤ p.1 ∧ p.1 < e) = [] := by
          rw [List.filter_eq_nil_iff]
          intro p hp
          have := hallle p hp
          simp only [decide_eq_true_eq]
          intro hc
          omega
        rw [hnil]
        rfl
      · simp only [getTimeRange, hsome, hm]
        rw [List.filter_filter]
        congr 1
        apply List.filter_congr
        intro p hp
        by_cases hc : s ≤ p.1 ∧ p.1 < e
        · have htp : t ≤ p.1 := by omega
          simp [hc, htp]
        · simp [hc]
    · simp only [getTimeRange, huntouched k hkin]

/-- Witness for C2 (amended) at a concrete invariant-satisfying state. -/
theorem C2_expire_range_witness :
    ∃ c' ks, expireEntriesBefore 20
        (⟨[(0, [(10, [1]), (30, [3])])], [(10, [0])]⟩ : KTMCache Nat Nat) = some (c', ks) ∧
      (∀ k, getTimeRange k 0 20 c' = []) ∧
      (∀ k s e, 20 < s → getTimeRange k s e c' =
        getTimeRange k s e (⟨[(0, [(10, [1]), (30, [3])])], [(10, [0])]⟩ : KTMCache Nat Nat)) :=
  C2_expire_range_equiv ⟨[(0, [(10, [1]), (30, [3])])], [(10, [0])]⟩ 20 (by decide)

theorem replayLog_skip_filter {K V : Type} [DecidableEq K] [DecidableEq V] (mvt : Nat) :
    ∀ (log : List (DataTuple K V)) (values : List (K × TimeMap V)),
    replayLog mvt values log =
      replayLog mvt values (log.filter (fun tu => mvt ≤ tu.timestamp)) := by
  intro log
  induction log with
  | nil => intro values; rfl
  | cons tu rest ih =>
    intro values
    by_cases h : tu.timestamp < mvt
    · have hskip : replayTuple mvt values tu = some values := by
        simp [replayTuple, h]
      have hb : decide (mvt ≤ tu.timestamp) = false := by
        simp only [decide_eq_false_iff_not]
        omega
      rw [List.filter_cons]
      simp only [hb, Bool.false_eq_true, if_false]
      simp only [replayLog, hskip]
      exact ih values
    · have hb : decide (mvt ≤ tu.timestamp) = true := by
        simp only [decide_eq_true_eq]
        omega
      rw [List.filter_cons]
      simp only [hb, if_true]
      simp only [replayLog]
      cases hr : replayTuple mvt values tu with
      | none => rfl
      | some v' => exact ih v'

/-- C6: during `from_checkpoint`, every replayed tuple with a timestamp
strictly below `min_valid_time` is skipped (replay over a log equals replay
over the log restricted to timestamps `≥ min_valid_time`), `min_valid_time`
is `min_watermark − retention_micros` when the watermark is present and
`UNIX_EPOCH` otherwise, and the spec's example (`min_watermark = 1000`,
`retention_micros = 300`, inserts at 600, 800, 1200) restores exactly the
timestamps 800 and 1200. -/
theorem C6_restore_skips_below_min_valid_time :
    (∀ (K V : Type) [DecidableEq K] [DecidableEq V] (mvt : Nat)
        (values : List (K × TimeMap V)) (log : List (DataTuple K V)),
      replayLog mvt values log =
        replayLog mvt values (log.filter (fun tu => mvt ≤ tu.timestamp))) ∧
    minValidTime (some 1000) 300 = 700 ∧
    minValidTime none 300 = 0 ∧
    fromCheckpoint (some 1000) 300
      [⟨0, 600, some 1, DataOp.insertOp⟩, ⟨0, 800, some 2, DataOp.insertOp⟩,
        ⟨0, 1200, some 3, DataOp.insertOp⟩]
      = some (⟨[(0, [(800, [2]), (1200, [3])])], [(800, [0])]⟩ : KTMCache Nat Nat) := by
  refine ⟨?_, by decide, by decide, by decide⟩
  intro K V iK iV mvt values log
  exact replayLog_skip_filter mvt log values

/-- C7: during `from_checkpoint` replay, a `DeleteValue` record removes only
the first element equal to the decoded value (`removeFirst` decreases the
multiplicity of the value by exactly one), and replaying
`Insert(k,10,a); Insert(k,10,a); DeleteValue(k,10,a)` leaves
`values[k][10] = [a]` with exactly one copy. -/
theorem C7_replay_delete_value_first_match :
    (∀ (α : Type) [DecidableEq α] (v : α) (l : List α),
      (removeFirst v l).count v = l.count v - 1) ∧
    replayLog 0 []
      [⟨0, 10, some 1, DataOp.insertOp⟩, ⟨0, 10, some 1, DataOp.insertOp⟩,
        ⟨0, 10, none, DataOp.deleteValue 0 1 10⟩]
      = some ([(0, [(10, [1])])] : List (Nat × TimeMap Nat)) := by
  refine ⟨?_, by decide⟩
  intro α iα v l
  induction l with
  | nil => simp [removeFirst]
  | cons x rest ih =>
    by_cases hx : x = v
    · subst hx
      simp [removeFirst]
    · simp [removeFirst, hx, List.count_cons_of_ne (fun hc => hx hc.symm), ih]

/-- C8: `checkpoint_finished` returns an error when the request's
`operator_id` is not a key of `operator_state`, and an error when the
`metadata` field is absent (the operator check happens first); in both cases
the returned state is exactly the input state, unmodified. -/
theorem C8_checkpoint_finished_error_cases (merge : MergeRule) (st : CheckpointStateM)
    (c : TaskCheckpointCompletedReqM) :
    (lookupA c.operator_id st.operator_state = none →
      checkpointFinished merge st c = some (st, CFOutcome.errUnknownOperator)) ∧
    (∀ os, lookupA c.operator_id st.operator_state = some os → c.metadata = none →
      checkpointFinished merge st c = some (st, CFOutcome.errMissingMetadata)) := by
  constructor
  · intro h
    simp [checkpointFinished, h]
  · intro os h hm
    simp [checkpointFinished, h, hm]

/-- Witness for C8 at a concrete coordinator state: an unknown operator id and
a request with no metadata both fail and leave the state unchanged. -/
theorem C8_checkpoint_finished_error_witness :
    checkpointFinished (fun _ _ => none)
      (⟨"j", 1, 2, 1, 0, 1, 0, [("a", OperatorStateM.new 1)], []⟩ : CheckpointStateM)
      ⟨"b", 0, some ⟨0, 5, 9, some 42, [], []⟩⟩
      = some (⟨"j", 1, 2, 1, 0, 1, 0, [("a", OperatorStateM.new 1)], []⟩,
          CFOutcome.errUnknownOperator) ∧
    checkpointFinished (fun _ _ => none)
      (⟨"j", 1, 2, 1, 0, 1, 0, [("a", OperatorStateM.new 1)], []⟩ : CheckpointStateM)
      ⟨"a", 0, none⟩
      = some (⟨"j", 1, 2, 1, 0, 1, 0, [("a", OperatorStateM.new 1)], []⟩,
          CFOutcome.errMissingMetadata) :=
  ⟨(C8_checkpoint_finished_error_cases (fun _ _ => none)
      ⟨"j", 1, 2, 1, 0, 1, 0, [("a", OperatorStateM.new 1)], []⟩
      ⟨"b", 0, some ⟨0, 5, 9, some 42, [], []⟩⟩).1 (by decide),
   (C8_checkpoint_finished_error_cases (fun _ _ => none)
      ⟨"j", 1, 2, 1, 0, 1, 0, [("a", OperatorStateM.new 1)], []⟩
      ⟨"a", 0, none⟩).2 (OperatorStateM.new 1) (by decide) rfl⟩

/-- C9: `checkpoint_event` returns an error exactly for `FinishedCommit`; for
every other event type it succeeds, appends exactly one translated UI event to
`operator_details[operator_id].tasks[subtask_index].events`, and on first
sight of the operator or the subtask creates the intermediate detail record
with `start_time` equal to the event's time. -/
theorem C9_checkpoint_event_spec (st : CheckpointStateM) (c : TaskCheckpointEventReqM) :
    (c.event_type = GrpcEventType.finishedCommit →
      checkpointEvent st c =
        Except.error "should not receive finished commit while checkpointing") ∧
    (c.event_type ≠ GrpcEventType.finishedCommit → ∃ st',
      checkpointEvent st c = Except.ok st' ∧
      taskEvents st' c.operator_id c.subtask_index =
        taskEvents st c.operator_id c.subtask_index ++
          [⟨c.time, translateEventType c.event_type⟩] ∧
      (lookupA c.operator_id st.operator_details = none →
        ∃ d, lookupA c.operator_id st'.operator_details = some d ∧ d.start_time = c.time) ∧
      (taskDetail st c.operator_id c.subtask_index = none →
        ∃ td, taskDetail st' c.operator_id c.subtask_index = some td ∧
          td.start_time = c.time)) := by
  constructor
  · intro h
    simp [checkpointEvent, h]
  · intro h
    refine ⟨{ st with operator_details := updateA c.operator_id (freshOperatorDetail c) (intoOperatorDetail c) st.operator_details }, ?_, ?_, ?_, ?_⟩
    · simp [checkpointEvent, h]
    · simp only [taskEvents, lookupA_updateA_self]
      cases hod : lookupA c.operator_id st.operator_details with
      | none =>
        simp only [Option.getD_none, intoOperatorDetail, freshOperatorDetail]
        rw [lookupA_updateA_self]
        simp [lookupA, pushTaskEvent, freshTaskDetail]
      | some d =>
        simp only [Option.getD_some, intoOperatorDetail]
        rw [lookupA_updateA_self]
        cases htd : lookupA c.subtask_index d.tasks with
        | none => simp [htd, pushTaskEvent, freshTaskDetail]
        | some td => simp [htd, pushTaskEvent]
    · intro hod
      refine ⟨_, lookupA_updateA_self _ _ _ _, ?_⟩
      rw [hod]
      rfl
    · intro htd
      simp only [taskDetail, lookupA_updateA_self]
      cases hod : lookupA c.operator_id st.operator_details with
      | none =>
        simp only [Option.getD_none, intoOperatorDetail, freshOperatorDetail]
        refine ⟨_, lookupA_updateA_self _ _ _ _, ?_⟩
        simp [lookupA, pushTaskEvent, freshTaskDetail]
      | some d =>
        simp only [taskDetail, hod] at htd
        simp only [Option.getD_some, intoOperatorDetail]
        refine ⟨_, lookupA_updateA_self _ _ _ _, ?_⟩
        rw [htd]
        rfl

/-- Witness for C9: applying the theorem at a concrete request of each kind,
on a coordinator state with no prior details. -/
theorem C9_checkpoint_event_witness :
    checkpointEvent (⟨"j", 1, 2, 1, 0, 1, 0, [("a", OperatorStateM.new 1)], []⟩ :
        CheckpointStateM) ⟨"a", 3, 77, GrpcEventType.finishedCommit⟩ =
      Except.error "should not receive finished commit while checkpointing" ∧
    (∃ st', checkpointEvent (⟨"j", 1, 2, 1, 0, 1, 0, [("a", OperatorStateM.new 1)], []⟩ :
        CheckpointStateM) ⟨"a", 3, 77, GrpcEventType.startedAlignment⟩ = Except.ok st' ∧
      taskEvents st' "a" 3 =
        taskEvents (⟨"j", 1, 2, 1, 0, 1, 0, [("a", OperatorStateM.new 1)], []⟩ :
          CheckpointStateM) "a" 3 ++ [⟨77, translateEventType GrpcEventType.startedAlignment⟩] ∧
      (lookupA "a" (⟨"j", 1, 2, 1, 0, 1, 0, [("a", OperatorStateM.new 1)], []⟩ :
          CheckpointStateM).operator_details = none →
        ∃ d, lookupA "a" st'.operator_details = some d ∧ d.start_time = 77) ∧
      (taskDetail (⟨"j", 1, 2, 1, 0, 1, 0, [("a", OperatorStateM.new 1)], []⟩ :
          CheckpointStateM) "a" 3 = none →
        ∃ td, taskDetail st' "a" 3 = some td ∧ td.start_time = 77)) :=
  ⟨(C9_checkpoint_event_spec ⟨"j", 1, 2, 1, 0, 1, 0, [("a", OperatorStateM.new 1)], []⟩
      ⟨"a", 3, 77, GrpcEventType.finishedCommit⟩).1 rfl,
   (C9_checkpoint_event_spec ⟨"j", 1, 2, 1, 0, 1, 0, [("a", OperatorStateM.new 1)], []⟩
      ⟨"a", 3, 77, GrpcEventType.startedAlignment⟩).2 (by decide)⟩

theorem any_isNone_iff {l : List (Option Nat)} :
    (l.any (fun w => w.isNone) = true) ↔ none ∈ l := by
  rw [List.any_eq_true]
  constructor
  · rintro ⟨x, hx, hxn⟩
    cases x with
    | none => exact hx
    | some a => simp at hxn
  · intro hn
    exact ⟨none, hn, rfl⟩

/-- C5: when `checkpoint_finished` completes an operator (the success path
that persists an `OperatorCheckpointMetadata`), the persisted
`(min_watermark, max_watermark)` pair is `(None, None)` if and only if some
acknowledged subtask of that operator reported watermark `None`; otherwise it
equals the minimum and the maximum of the reported subtask watermarks. -/
theorem C5_watermark_aggregation {merge : MergeRule} {st st' : CheckpointStateM}
    {c : TaskCheckpointCompletedReqM} {meta : OpCheckpointMeta}
    (h : checkpointFinished merge st c = some (st', CFOutcome.ok (some meta))) :
    ∃ os m, lookupA c.operator_id st.operator_state = some os ∧ c.metadata = some m ∧
      ((meta.min_watermark = none ∧ meta.max_watermark = none) ↔
        none ∈ os.watermarks ++ [m.watermark]) ∧
      (none ∉ os.watermarks ++ [m.watermark] →
        meta.min_watermark = listMin ((os.watermarks ++ [m.watermark]).filterMap id) ∧
        meta.max_watermark = listMax ((os.watermarks ++ [m.watermark]).filterMap id)) := by
  simp only [checkpointFinished] at h
  cases hlk : lookupA c.operator_id st.operator_state with
  | none =>
    rw [hlk] at h
    simp at h
  | some os =>
    rw [hlk] at h
    dsimp only [] at h
    cases hmd : c.metadata with
    | none =>
      rw [hmd] at h
      simp at h
    | some m =>
      rw [hmd] at h
      dsimp only [] at h
      cases hfs : finishSubtask merge os m with
      | none =>
        rw [hfs] at h
        simp at h
      | some pr =>
        obtain ⟨os', r⟩ := pr
        rw [hfs] at h
        dsimp only [] at h
        have hw : os'.watermarks = os.watermarks ++ [m.watermark] :=
          finishSubtask_watermarks hfs
        cases r with
        | none => simp at h
        | some pair =>
          obtain ⟨tc, tm⟩ := pair
          dsimp only [] at h
          cases hst0 : os'.start_time with
          | none =>
            rw [hst0] at h
            dsimp only [] at h
            simp at h
          | some s0 =>
            cases hft0 : os'.finish_time with
            | none =>
              rw [hst0, hft0] at h
              dsimp only [] at h
              simp at h
            | some f0 =>
              rw [hst0, hft0] at h
              dsimp only [] at h
              refine ⟨os, m, rfl, rfl, ?_⟩
              by_cases hany : os'.watermarks.any (fun w => w.isNone) = true
              · rw [if_pos hany] at h
                dsimp only [] at h
                simp only [Option.some.injEq, Prod.mk.injEq, CFOutcome.ok.injEq] at h
                obtain ⟨hst', hmeta⟩ := h
                rw [← hmeta]
                have hmem : none ∈ os.watermarks ++ [m.watermark] := by
                  rw [← hw]
                  exact any_isNone_iff.mp hany
                constructor
                · simp [hmem]
                · intro hno
                  exact absurd hmem hno
              · rw [if_neg hany] at h
                dsimp only [] at h
                simp only [Option.some.injEq, Prod.mk.injEq, CFOutcome.ok.injEq] at h
                obtain ⟨hst', hmeta⟩ := h
                rw [← hmeta]
                have hnomem : none ∉ os.watermarks ++ [m.watermark] := by
                  rw [← hw]
                  intro hc
                  exact hany (any_isNone_iff.mpr hc)
                have hwne : os'.watermarks ≠ [] := by
                  rw [hw]
                  simp
                have hfne : os'.watermarks.filterMap id ≠ [] :=
                  filterMap_id_ne_nil hwne (by rw [hw]; exact hnomem)
                constructor
                · constructor
                  · rintro ⟨hmin, hmax⟩
                    exact absurd (listMin_eq_none_iff.mp hmin) hfne
                  · intro hmem
                    exact absurd hmem hnomem
                · intro hno
                  rw [← hw]
                  exact ⟨rfl, rfl⟩

/-- Witness for C5: a single-subtask operator completing with watermark 42
persists `(min_watermark, max_watermark) = (some 42, some 42)`. -/
theorem C5_watermark_aggregation_witness :
    ∃ os m, lookupA "a"
        (⟨"j", 1, 2, 1, 0, 1, 0, [("a", OperatorStateM.new 1)], []⟩ :
          CheckpointStateM).operator_state = some os ∧
      (some ⟨0, 5, 9, some 42, [], []⟩ : Option SubtaskMeta) = some m ∧
      ((Option.some 42 = none ∧ Option.some 42 = none) ↔
        none ∈ os.watermarks ++ [m.watermark]) ∧
      (none ∉ os.watermarks ++ [m.watermark] →
        Option.some 42 = listMin ((os.watermarks ++ [m.watermark]).filterMap id) ∧
        Option.some 42 = listMax ((os.watermarks ++ [m.watermark]).filterMap id)) := by
  have h := @C5_watermark_aggregation (fun _ _ => none)
    ⟨"j", 1, 2, 1, 0, 1, 0, [("a", OperatorStateM.new 1)], []⟩
    ⟨"j", 1, 2, 1, 0, 1, 1,
      [("a", ⟨1, 1, some 5, some 9, [], [some 42]⟩)], []⟩
    ⟨"a", 0, some ⟨0, 5, 9, some 42, [], []⟩⟩
    ⟨"j", "a", 2, 5, 9, some 42, some 42, false, [], []⟩
    (by decide)
  exact h
